import Mathlib

/-!
Verification of the module-graph and HMR-channel core of the repository.

The module graph (`packages/vite/src/node/server/moduleGraph.ts`) is embedded
shallowly: module nodes live in a list, node identity is the list index, and
the three indices (url, id, file) are association lists mirroring the
insertion-ordered JS `Map`s.  JS `Set`s of nodes become duplicate-free lists
of indices with insertion-order `add`.  The injected asynchronous resolver
becomes a pure function stored in the graph structure; the source awaits it
sequentially, so sequential state threading is a faithful translation.

URL helper functions (`cleanUrl`, `removeTimestampQuery`, `removeImportQuery`,
`normalizePath`, `FS_PREFIX`, `isDirectCSSRequest`) are imported by the graph
from modules that are not part of the sources at hand; they are modelled from
the specification where so marked.
-/

namespace ViteGraph

/-! ## String helpers -/

/-- Split a character list at the first occurrence of `c`: returns the part
before and (when found) the part after the separator. -/
def splitFirstAux (c : Char) : List Char → List Char × Option (List Char)
  | [] => ([], none)
  | x :: xs =>
    if x = c then ([], some xs)
    else
      let r := splitFirstAux c xs
      (x :: r.1, r.2)

def splitFirst (s : String) (c : Char) : String × Option String :=
  let r := splitFirstAux c s.toList
  (String.mk r.1, r.2.map String.mk)

/-- Result of the legacy `url.parse` as used by `resolveUrl`: the path
component, the `?...` search part (empty when absent, including the marker),
and the `#...` hash part.  A URL with an empty path yields an empty
`pathname` here (the source would throw on its non-null assertion). -/
structure UrlParts where
  pathname : String
  search : String
  hash : String
  deriving DecidableEq

def parseUrl (u : String) : UrlParts :=
  let h := splitFirst u '#'
  let hash := match h.2 with
    | none => ""
    | some r => "#" ++ r
  let q := splitFirst h.1 '?'
  let search := match q.2 with
    | none => ""
    | some r => "?" ++ r
  ⟨q.1, search, hash⟩

/-- Modelled from the spec: `cleanUrl` (from the `utils` module, absent from
the sources) strips the query and hash from a URL, leaving the path. -/
def cleanUrl (u : String) : String := (parseUrl u).pathname

/-- `String.endsWith` of JS, decided on the character lists. -/
def strEndsWith (s suf : String) : Bool := suf.toList.isSuffixOf s.toList

/-- The final path segment (after the last `/`). -/
def basenameChars (l : List Char) : List Char :=
  (l.reverse.takeWhile (fun c => c ≠ '/')).reverse

/-- `path.extname` of Node: the suffix of the basename from its last dot,
empty for dotless names, leading-dot-only names and all-dot names. -/
def extname (s : String) : String :=
  if (basenameChars s.toList).all (fun c => c = '.') then ""
  else if ((basenameChars s.toList).reverse.takeWhile (fun c => c ≠ '.')).length + 2 ≤
      (basenameChars s.toList).length then
    String.mk ('.' :: ((basenameChars s.toList).reverse.takeWhile (fun c => c ≠ '.')).reverse)
  else ""

/-- Split a character list on a separator character. -/
def splitOnChar (c : Char) : List Char → List (List Char)
  | [] => [[]]
  | x :: xs =>
    if x = c then [] :: splitOnChar c xs
    else
      match splitOnChar c xs with
      | [] => [[x]]
      | p :: ps => (x :: p) :: ps

/-- Join query parameters with `&`. -/
def joinAmp : List (List Char) → List Char
  | [] => []
  | [x] => x
  | x :: xs => x ++ '&' :: joinAmp xs

/-- The list of `&`-separated parameters of a search string (with marker). -/
def queryParams (search : String) : List (List Char) :=
  match search.toList with
  | [] => []
  | _ :: rest => splitOnChar '&' rest

/-- Reassemble a URL from path, parameters and hash. -/
def withQuery (pathname : String) (params : List (List Char)) (hash : String) : String :=
  pathname ++ (if params.isEmpty then "" else "?" ++ String.mk (joinAmp params)) ++ hash

/-- Is this query parameter an HMR timestamp parameter `t=<digits>`? -/
def isTimestampParam (p : List Char) : Bool :=
  match p with
  | 't' :: '=' :: rest => !rest.isEmpty && rest.all Char.isDigit
  | _ => false

/-- Modelled from the spec: `removeTimestampQuery` (from the `utils` module,
absent from the sources) strips the HMR cache-busting timestamp query
parameter `t=<digits>` from a URL. -/
def removeTimestampQuery (u : String) : String :=
  let parts := parseUrl u
  withQuery parts.pathname
    ((queryParams parts.search).filter (fun p => !isTimestampParam p)) parts.hash

/-- Is this query parameter the internal force-re-import marker? -/
def isImportParam (p : List Char) : Bool :=
  match p with
  | 'i' :: 'm' :: 'p' :: 'o' :: 'r' :: 't' :: rest =>
    rest.isEmpty || rest.head? = some '='
  | _ => false

/-- Modelled from the spec: `removeImportQuery` (from the `utils` module,
absent from the sources) strips the internal force-re-import query marker
from a URL. -/
def removeImportQuery (u : String) : String :=
  let parts := parseUrl u
  withQuery parts.pathname
    ((queryParams parts.search).filter (fun p => !isImportParam p)) parts.hash

/-- Modelled from the spec: `normalizePath` (from the `utils` module, absent
from the sources) turns Windows path separators into posix ones. -/
def normalizePath (p : String) : String :=
  String.mk (p.toList.map (fun c => if c = '\\' then '/' else c))

/-- Modelled from the spec: `FS_PREFIX` (from the `constants` module, absent
from the sources) is the filesystem-escape URL namespace. -/
def FS_PREFIX : String := "/@fs/"

/-- Modelled from the spec: `isDirectCSSRequest` (from the css plugin, absent
from the sources) recognises a direct style import; the node `type` computed
from it is set once at construction and never consulted by the graph. -/
def isDirectCSSRequest (u : String) : Bool := strEndsWith (cleanUrl u) ".css"

/-! ## Data model -/

/-- Opaque transform output. -/
abbrev TransformResult := String
/-- Opaque rollup module info. -/
abbrev RollupModuleInfo := String
/-- Opaque evaluated SSR module instance. -/
abbrev SSRModule := String
/-- Opaque resolver metadata. -/
abbrev MetaData := String

inductive ModType where
  | js
  | css
  deriving DecidableEq

/-- One module node of the graph.  Edge sets hold node indices. -/
structure ModuleNode where
  url : String
  id : Option String := none
  file : Option String := none
  type : ModType := ModType.js
  info : Option RollupModuleInfo := none
  meta : Option MetaData := none
  importers : List Nat := []
  importedModules : List Nat := []
  acceptedHmrDeps : List Nat := []
  isSelfAccepting : Bool := false
  transformResult : Option TransformResult := none
  ssrTransformResult : Option TransformResult := none
  ssrModule : Option SSRModule := none
  lastHMRTimestamp : Nat := 0
  deriving DecidableEq

/-- The `ModuleNode` constructor: stores the url and derives the type. -/
def ModuleNode.create (url : String) : ModuleNode :=
  { url := url, type := if isDirectCSSRequest url then ModType.css else ModType.js }

/-- The resolver result `PartialResolvedId`. -/
structure PartialResolvedId where
  id : String
  meta : Option MetaData := none
  deriving DecidableEq

/-- Association-list lookup (first match), mirroring JS `Map.get`. -/
def alGet {κ α : Type} [DecidableEq κ] : List (κ × α) → κ → Option α
  | [], _ => none
  | (k', v) :: rest, k => if k' = k then some v else alGet rest k

/-- Association-list update, mirroring JS `Map.set`: replace in place or
append. -/
def alSet {κ α : Type} [DecidableEq κ] : List (κ × α) → κ → α → List (κ × α)
  | [], k, v => [(k, v)]
  | (k', v') :: rest, k, v =>
    if k' = k then (k, v) :: rest else (k', v') :: alSet rest k v

/-- JS `Set.add` on an insertion-ordered duplicate-free list. -/
def listAdd (l : List Nat) (x : Nat) : List Nat := if x ∈ l then l else l ++ [x]

/-- The module graph: node store plus the three indices and the injected
resolver. -/
structure ModuleGraph where
  resolveId : String → Bool → Option PartialResolvedId
  mods : List ModuleNode := []
  urlToModuleMap : List (String × Nat) := []
  idToModuleMap : List (String × Nat) := []
  fileToModulesMap : List (String × List Nat) := []
  safeModulesPath : List String := []

def ModuleGraph.getMod (g : ModuleGraph) (i : Nat) : ModuleNode :=
  g.mods.getD i (ModuleNode.create "")

def ModuleGraph.setMod (g : ModuleGraph) (i : Nat) (m : ModuleNode) : ModuleGraph :=
  { g with mods := g.mods.set i m }

def ModuleGraph.modifyMod (g : ModuleGraph) (i : Nat) (f : ModuleNode → ModuleNode) :
    ModuleGraph :=
  g.setMod i (f (g.getMod i))

/-! ## Graph operations -/

/-- `ModuleGraph.resolveUrl`: strip the timestamp query and import marker,
consult the resolver, fall back to the cleaned url on a miss, and append the
resolved extension to an extension-less path. -/
def ModuleGraph.resolveUrl (g : ModuleGraph) (url : String) (ssr : Bool) :
    String × String × Option MetaData :=
  let url := removeImportQuery (removeTimestampQuery url)
  let resolved := g.resolveId url ssr
  let resolvedId := match resolved with
    | none => url
    | some r => if r.id = "" then url else r.id
  let ext := extname (cleanUrl resolvedId)
  let parts := parseUrl url
  let url' :=
    if ext ≠ "" ∧ strEndsWith parts.pathname ext = false then
      parts.pathname ++ ext ++ parts.search ++ parts.hash
    else url
  (url', resolvedId, resolved.bind (fun r => r.meta))

def ModuleGraph.getModuleByUrl (g : ModuleGraph) (rawUrl : String) (ssr : Bool) :
    Option Nat :=
  alGet g.urlToModuleMap (g.resolveUrl rawUrl ssr).1

def ModuleGraph.getModuleById (g : ModuleGraph) (id : String) : Option Nat :=
  alGet g.idToModuleMap (removeTimestampQuery id)

def ModuleGraph.getModulesByFile (g : ModuleGraph) (file : String) : Option (List Nat) :=
  alGet g.fileToModulesMap file

/-- `ModuleGraph.ensureEntryFromUrl`: return the node registered under the
canonical url, or create one and register it in all three indices.  The
source's sequence of in-place mutations is collapsed into one record
update building the same final state. -/
def ModuleGraph.ensureEntryFromUrl (g : ModuleGraph) (rawUrl : String) (ssr : Bool) :
    ModuleGraph × Nat :=
  let r := g.resolveUrl rawUrl ssr
  let url := r.1
  let resolvedId := r.2.1
  let meta := r.2.2
  match alGet g.urlToModuleMap url with
  | some n => (g, n)
  | none =>
    let n := g.mods.length
    let file := cleanUrl resolvedId
    let node : ModuleNode :=
      { ModuleNode.create url with meta := meta, id := some resolvedId, file := some file }
    let fileMapped := (alGet g.fileToModulesMap file).getD []
    ({ g with
        mods := g.mods ++ [node],
        urlToModuleMap := alSet g.urlToModuleMap url n,
        idToModuleMap := alSet g.idToModuleMap resolvedId n,
        fileToModulesMap := alSet g.fileToModulesMap file (listAdd fileMapped n) }, n)

/-- `ModuleGraph.createFileOnlyEntry`: register a node for a dependency with
no servable url, deduplicating against existing nodes for the file. -/
def ModuleGraph.createFileOnlyEntry (g : ModuleGraph) (file : String) :
    ModuleGraph × Nat :=
  let file := normalizePath file
  let st := match alGet g.fileToModulesMap file with
    | some s => (g, s)
    | none => ({ g with fileToModulesMap := alSet g.fileToModulesMap file [] }, [])
  let g := st.1
  let fileMapped := st.2
  let url := FS_PREFIX ++ file
  match fileMapped.find? (fun m => (g.getMod m).url = url || (g.getMod m).id = some file) with
  | some m => (g, m)
  | none =>
    let n := g.mods.length
    let node : ModuleNode := { ModuleNode.create url with file := some file }
    ({ g with
        mods := g.mods ++ [node],
        fileToModulesMap := alSet g.fileToModulesMap file (listAdd fileMapped n) }, n)

/-- Resolve one entry of an `updateModuleInfo` input set: a raw url goes
through `ensureEntryFromUrl`, a node is used as is. -/
def ModuleGraph.entryOf (g : ModuleGraph) (x : String ⊕ Nat) (ssr : Bool) :
    ModuleGraph × Nat :=
  match x with
  | Sum.inl u => g.ensureEntryFromUrl u ssr
  | Sum.inr d => (g, d)

/-- The import-reconciliation loop of `updateModuleInfo`: for each freshly
imported entry, add the back-edge to the dependency and record the forward
edge (the source's `nextImports` aliases `mod.importedModules`). -/
def updateImportsLoop (ssr : Bool) (mod : Nat) :
    ModuleGraph → List (String ⊕ Nat) → ModuleGraph
  | g, [] => g
  | g, x :: rest =>
    let r := g.entryOf x ssr
    let g := r.1
    let dep := r.2
    let g := g.modifyMod dep (fun m => { m with importers := listAdd m.importers mod })
    let g := g.modifyMod mod (fun m => { m with importedModules := listAdd m.importedModules dep })
    updateImportsLoop ssr mod g rest

/-- The removal loop of `updateModuleInfo`: drop the back-edge from every
previously imported dependency that is no longer imported, collecting those
left with no importer. -/
def pruneImportsLoop (mod : Nat) :
    ModuleGraph → Option (List Nat) → List Nat → ModuleGraph × Option (List Nat)
  | g, nl, [] => (g, nl)
  | g, nl, dep :: rest =>
    if dep ∈ (g.getMod mod).importedModules then pruneImportsLoop mod g nl rest
    else
      let g := g.modifyMod dep (fun m => { m with importers := m.importers.erase mod })
      let nl :=
        if (g.getMod dep).importers.isEmpty then some (listAdd (nl.getD []) dep) else nl
      pruneImportsLoop mod g nl rest

/-- The accepted-HMR-deps loop of `updateModuleInfo` (the source's `deps`
aliases `mod.acceptedHmrDeps`). -/
def acceptedLoop (ssr : Bool) (mod : Nat) :
    ModuleGraph → List (String ⊕ Nat) → ModuleGraph
  | g, [] => g
  | g, x :: rest =>
    let r := g.entryOf x ssr
    let g := r.1
    let dep := r.2
    let g := g.modifyMod mod (fun m => { m with acceptedHmrDeps := listAdd m.acceptedHmrDeps dep })
    acceptedLoop ssr mod g rest

/-- `ModuleGraph.updateModuleInfo`: reconcile a node's import edges against a
fresh import list, replace its accepted HMR deps, and return the
no-longer-imported dependencies left with zero importers (absent when there
are none). -/
def ModuleGraph.updateModuleInfo (g : ModuleGraph) (mod : Nat)
    (importedModules : List (String ⊕ Nat)) (acceptedModules : List (String ⊕ Nat))
    (isSelfAccepting : Bool) (ssr : Bool) : ModuleGraph × Option (List Nat) :=
  let g := g.modifyMod mod (fun m => { m with isSelfAccepting := isSelfAccepting })
  let prevImports := (g.getMod mod).importedModules
  let g := g.modifyMod mod (fun m => { m with importedModules := [] })
  let g := updateImportsLoop ssr mod g importedModules
  let pr := pruneImportsLoop mod g none prevImports
  let g := pr.1
  let g := g.modifyMod mod (fun m => { m with acceptedHmrDeps := [] })
  let g := acceptedLoop ssr mod g acceptedModules
  (g, pr.2)

/-! ## SSR invalidation cascade

The source recurses through the live importer sets with a shared `seen` set.
The embedding runs the same recursion on fuel, returning `none` on fuel
exhaustion; `invalidateModule` supplies `mods.length + 1` fuel, which the
termination theorem below proves sufficient for well-formed graphs. -/

/-- The `mod.importers.forEach` of `invalidateSSRModule`: run the cascade
step `f` on each listed importer, threading graph and `seen` set. -/
def cascadeList (f : ModuleGraph → Nat → List Nat → Option (ModuleGraph × List Nat)) :
    ModuleGraph → List Nat → List Nat → Option (ModuleGraph × List Nat)
  | g, [], seen => some (g, seen)
  | g, i :: rest, seen =>
    match f g i seen with
    | none => none
    | some r => cascadeList f r.1 rest r.2

/-- `invalidateSSRModule` on fuel: skip seen nodes, otherwise mark the node
seen, clear its evaluated SSR instance, and recurse into its importers.
`none` signals fuel exhaustion; the termination theorem shows the fuel
supplied by `invalidateModule` never runs out on well-formed graphs. -/
def invalidateSSRGo : Nat → ModuleGraph → Nat → List Nat → Option (ModuleGraph × List Nat)
  | 0, _, _, _ => none
  | Nat.succ fuel, g, m, seen =>
    if m ∈ seen then some (g, seen)
    else
      let seen := m :: seen
      let g := g.modifyMod m (fun node => { node with ssrModule := none })
      cascadeList (invalidateSSRGo fuel) g ((g.getMod m).importers) seen

/-- `invalidateSSRModule` with the argument order of the source. -/
def invalidateSSRModule (g : ModuleGraph) (m : Nat) (seen : List Nat) (fuel : Nat) :
    Option (ModuleGraph × List Nat) :=
  invalidateSSRGo fuel g m seen

/-- `ModuleGraph.invalidateModule`: clear the node's own rollup info and
transform caches, then run the SSR cascade. -/
def ModuleGraph.invalidateModule (g : ModuleGraph) (m : Nat) (seen : List Nat := []) :
    Option (ModuleGraph × List Nat) :=
  let g := g.modifyMod m
    (fun node => { node with info := none, transformResult := none, ssrTransformResult := none })
  invalidateSSRModule g m seen (g.mods.length + 1)

/-- Invalidate each listed node in turn under one threaded `seen` set. -/
def invalidateList (g : ModuleGraph) (ids : List Nat) (seen : List Nat) :
    Option (ModuleGraph × List Nat) :=
  match ids with
  | [] => some (g, seen)
  | i :: rest =>
    match g.invalidateModule i seen with
    | none => none
    | some r => invalidateList r.1 rest r.2

/-- `ModuleGraph.invalidateAll`: invalidate every id-indexed node under one
shared `seen` set. -/
def ModuleGraph.invalidateAll (g : ModuleGraph) : Option ModuleGraph :=
  (invalidateList g (g.idToModuleMap.map (fun p => p.2)) []).map (fun r => r.1)

/-- `ModuleGraph.onFileChange`: invalidate every node of the changed file
under one shared `seen` set. -/
def ModuleGraph.onFileChange (g : ModuleGraph) (file : String) : Option ModuleGraph :=
  match alGet g.fileToModulesMap file with
  | none => some g
  | some mods => (invalidateList g mods []).map (fun r => r.1)

/-! ## HMR websocket channel (from the unnamed server source) -/

/-- The wire payloads of the update channel. -/
inductive HMRPayload where
  | connected
  | update (updates : List String)
  | fullReload (path : Option String)
  | prune (paths : List String)
  | error (err : String)
  deriving DecidableEq

def HMRPayload.isError : HMRPayload → Bool
  | HMRPayload.error _ => true
  | _ => false

/-- The state of the websocket server: open client connections, the
single-slot buffered error, and each client's received payloads. -/
structure WSServerState where
  clients : List Nat := []
  bufferedError : Option HMRPayload := none
  received : List (Nat × List HMRPayload) := []

/-- Deliver one payload to one client socket. -/
def wsDeliver (s : WSServerState) (cid : Nat) (p : HMRPayload) : WSServerState :=
  { s with received := alSet s.received cid ((alGet s.received cid).getD [] ++ [p]) }

/-- A new connection: the socket joins the client set, is sent `connected`,
and then the buffered error, if any, which is cleared. -/
def wsConnect (s : WSServerState) (cid : Nat) : WSServerState :=
  let s := { s with clients := listAdd s.clients cid }
  let s := wsDeliver s cid HMRPayload.connected
  match s.bufferedError with
  | some e => { wsDeliver s cid e with bufferedError := none }
  | none => s

/-- `send`: an error payload with no open client is buffered (overwriting the
slot); otherwise the payload goes to every open client. -/
def wsSend (s : WSServerState) (p : HMRPayload) : WSServerState :=
  if p.isError && s.clients.isEmpty then { s with bufferedError := some p }
  else s.clients.foldl (fun s c => wsDeliver s c p) s

/-! ## Derived predicates used by the verification -/

/-- The importer adjacency of a graph. -/
def ModuleGraph.impFun (g : ModuleGraph) : Nat → List Nat :=
  fun i => (g.getMod i).importers

/-- What one SSR-cascade run may do: grow the `seen` set, clear `ssrModule`
on exactly the newly seen nodes, and change nothing else. -/
def CascadeFrame (g g' : ModuleGraph) (seen seen' : List Nat) : Prop :=
  seen ⊆ seen' ∧
  g'.mods.length = g.mods.length ∧
  (∀ j, g'.getMod j =
    (if j ∈ seen' ∧ j ∉ seen then { g.getMod j with ssrModule := none } else g.getMod j)) ∧
  g'.urlToModuleMap = g.urlToModuleMap ∧
  g'.idToModuleMap = g.idToModuleMap ∧
  g'.fileToModulesMap = g.fileToModulesMap ∧
  g'.resolveId = g.resolveId ∧
  g'.safeModulesPath = g.safeModulesPath

/-- Edge well-formedness: every edge list is duplicate-free (JS `Set`s) and
points at existing nodes. -/
def EdgesWF (g : ModuleGraph) : Prop :=
  ∀ j, j < g.mods.length →
    ((g.getMod j).importers.Nodup ∧
     (∀ i ∈ (g.getMod j).importers, i < g.mods.length) ∧
     (g.getMod j).importedModules.Nodup ∧
     (∀ i ∈ (g.getMod j).importedModules, i < g.mods.length))

/-- Index well-formedness: every index entry points at an existing node. -/
def MapsWF (g : ModuleGraph) : Prop :=
  (∀ p ∈ g.urlToModuleMap, p.2 < g.mods.length) ∧
  (∀ p ∈ g.idToModuleMap, p.2 < g.mods.length) ∧
  (∀ p ∈ g.fileToModulesMap, ∀ n ∈ p.2, n < g.mods.length)

/-- The measure of the termination argument: how many registered nodes are
not yet seen. -/
def unseenCard (g : ModuleGraph) (seen : List Nat) : Nat :=
  (Finset.range g.mods.length \ seen.toFinset).card

/-- Paths along importer edges all of whose nodes avoid a given set. -/
inductive ReachAvoid (imp : Nat → List Nat) (avoid : List Nat) : Nat → Nat → Prop where
  | refl (m : Nat) (h : m ∉ avoid) : ReachAvoid imp avoid m m
  | step (m i j : Nat) (h : m ∉ avoid) (hi : i ∈ imp m) (hj : ReachAvoid imp avoid i j) :
      ReachAvoid imp avoid m j

/-- Transitive reachability along importer edges (the importer chain,
including the start node itself). -/
def ImporterReach (g : ModuleGraph) (m j : Nat) : Prop := ReachAvoid g.impFun [] m j

/-- The cleaned form of an incoming url: timestamp query and import marker
stripped (the first step of `resolveUrl`). -/
def cleanedOf (url : String) : String := removeImportQuery (removeTimestampQuery url)

/-- The resolved id produced by `resolveUrl`: the resolver answer, or the
cleaned url as fallback (also on an empty-string id, as the source uses a
JS truthiness test). -/
def resolvedIdOf (g : ModuleGraph) (url : String) (ssr : Bool) : String :=
  match g.resolveId (cleanedOf url) ssr with
  | none => cleanedOf url
  | some r => if r.id = "" then cleanedOf url else r.id

/-- The canonical url produced by `resolveUrl`: the cleaned url, with the
resolved extension appended to the path when missing. -/
def canonUrlOf (g : ModuleGraph) (url : String) (ssr : Bool) : String :=
  if extname (cleanUrl (resolvedIdOf g url ssr)) ≠ "" ∧
      strEndsWith (parseUrl (cleanedOf url)).pathname
        (extname (cleanUrl (resolvedIdOf g url ssr))) = false then
    (parseUrl (cleanedOf url)).pathname ++ extname (cleanUrl (resolvedIdOf g url ssr)) ++
      (parseUrl (cleanedOf url)).search ++ (parseUrl (cleanedOf url)).hash
  else cleanedOf url

/-- The metadata produced by `resolveUrl`. -/
def metaOf (g : ModuleGraph) (url : String) (ssr : Bool) : Option MetaData :=
  (g.resolveId (cleanedOf url) ssr).bind (fun r => r.meta)

/-- Both well-formedness predicates are decidable, so witnesses can check
them on concrete graphs. -/
instance (g : ModuleGraph) : Decidable (EdgesWF g) := by
  unfold EdgesWF
  infer_instance

instance (g : ModuleGraph) : Decidable (MapsWF g) := by
  unfold MapsWF
  infer_instance

/-- Edge symmetry: a node is among another's importedModules exactly when
the latter is among the former's importers. -/
def EdgeSym (g : ModuleGraph) : Prop :=
  ∀ a, a < g.mods.length → ∀ b, b < g.mods.length →
    (a ∈ (g.getMod b).importedModules ↔ b ∈ (g.getMod a).importers)

instance (g : ModuleGraph) : Decidable (EdgeSym g) := by
  unfold EdgeSym
  infer_instance

/-- Edge symmetry for all pairs not reading the reconciled node's forward
edges (the invariant holding while `updateModuleInfo` rebuilds them). -/
def PartialSym (mod : Nat) (g : ModuleGraph) : Prop :=
  ∀ a, a < g.mods.length → ∀ b, b < g.mods.length → b ≠ mod →
    (a ∈ (g.getMod b).importedModules ↔ b ∈ (g.getMod a).importers)

/-- During reconciliation, a node lists `mod` as importer exactly when it is
among the rebuilt forward edges or the still-unprocessed previous ones. -/
def ImporterInv (mod : Nat) (P : List Nat) (g : ModuleGraph) : Prop :=
  ∀ a, a < g.mods.length →
    (mod ∈ (g.getMod a).importers ↔
      (a ∈ (g.getMod mod).importedModules ∨ a ∈ P))

/-- An `updateModuleInfo` input entry that denotes the node `mod` in graph
`g`: either the node itself, or a url registered for it. -/
def ResolvesTo (mod : Nat) (ssr : Bool) (g : ModuleGraph) (x : String ⊕ Nat) : Prop :=
  x = Sum.inr mod ∨
  ∃ u, x = Sum.inl u ∧ alGet g.urlToModuleMap (g.resolveUrl u ssr).1 = some mod

/-! ## Concrete inputs used by the witnesses -/

/-- A resolver that never resolves. -/
def wResolveNone : String → Bool → Option PartialResolvedId := fun _ _ => none

/-- A resolver mapping the two spellings of one css module to one
identifier. -/
def wResolveCss : String → Bool → Option PartialResolvedId := fun u _ =>
  if u = "/foo" ∨ u = "/foo.css" then some ⟨"/root/foo.css", none⟩ else none

/-- A cyclic witness graph: 0 is imported by 1, 1 by 2, 2 by 0, with caches
filled in. -/
def wCycleGraph : ModuleGraph :=
  { resolveId := wResolveNone,
    mods := [{ ModuleNode.create "/a" with
                 id := some "/a", file := some "/a",
                 importers := [1], importedModules := [2], ssrModule := some "A",
                 transformResult := some "TA" },
             { ModuleNode.create "/b" with
                 id := some "/b", file := some "/b",
                 importers := [2], importedModules := [0], ssrModule := some "B",
                 transformResult := some "TB" },
             { ModuleNode.create "/c" with
                 id := some "/c", file := some "/c",
                 importers := [0], importedModules := [1], ssrModule := some "C",
                 transformResult := some "TC" }],
    urlToModuleMap := [("/a", 0), ("/b", 1), ("/c", 2)],
    idToModuleMap := [("/a", 0), ("/b", 1), ("/c", 2)],
    fileToModulesMap := [("/a", [0]), ("/b", [1]), ("/c", [2])] }

/-- A witness graph where 0 imports 1 and 2, and nobody else imports 2. -/
def wOrphanGraph : ModuleGraph :=
  { resolveId := wResolveNone,
    mods := [{ ModuleNode.create "/x" with
                 id := some "/x", file := some "/x",
                 importedModules := [1, 2] },
             { ModuleNode.create "/y" with
                 id := some "/y", file := some "/y",
                 importers := [0] },
             { ModuleNode.create "/z" with
                 id := some "/z", file := some "/z",
                 importers := [0] }],
    urlToModuleMap := [("/x", 0), ("/y", 1), ("/z", 2)],
    idToModuleMap := [("/x", 0), ("/y", 1), ("/z", 2)],
    fileToModulesMap := [("/x", [0]), ("/y", [1]), ("/z", [2])] }

/-- Index consistency as the code maintains it: every index entry points at
a live node whose corresponding field matches the key, and every live node
carrying a file is listed in the file index under it. -/
def IndexInv (g : ModuleGraph) : Prop :=
  (∀ p ∈ g.urlToModuleMap, p.2 < g.mods.length ∧ (g.getMod p.2).url = p.1) ∧
  (∀ p ∈ g.idToModuleMap, p.2 < g.mods.length ∧ (g.getMod p.2).id = some p.1) ∧
  (∀ p ∈ g.fileToModulesMap, ∀ n ∈ p.2, n < g.mods.length ∧ (g.getMod n).file = some p.1) ∧
  (∀ i, i < g.mods.length → ∀ f ∈ (g.getMod i).file, i ∈ (alGet g.fileToModulesMap f).getD [])

instance (g : ModuleGraph) : Decidable (IndexInv g) := by
  unfold IndexInv
  infer_instance

/-- Modelled from the spec: exactly one module node exists per canonical
URL, and every live node is reachable under its url in the URL index, under
its resolved id in the id index, and under its file in the file index. -/
def SpecIndexConsistent (g : ModuleGraph) : Prop :=
  (∀ i, i < g.mods.length → ∀ j, j < g.mods.length →
    (g.getMod i).url = (g.getMod j).url → i = j) ∧
  (∀ i, i < g.mods.length →
    alGet g.urlToModuleMap (g.getMod i).url = some i ∧
    (∀ rid ∈ (g.getMod i).id, alGet g.idToModuleMap rid = some i) ∧
    (∀ f ∈ (g.getMod i).file, i ∈ (alGet g.fileToModulesMap f).getD []))

instance (g : ModuleGraph) : Decidable (SpecIndexConsistent g) := by
  unfold SpecIndexConsistent
  infer_instance

/-- A graph over the two-spellings css resolver. -/
def wCssGraph : ModuleGraph := { resolveId := wResolveCss }

/-- The empty graph over the always-missing resolver. -/
def wEmptyGraph : ModuleGraph := { resolveId := wResolveNone }

/-! ## Association list and set-list lemmas -/

theorem alGet_alSet {κ α : Type} [DecidableEq κ] (m : List (κ × α)) (k k' : κ) (v : α) :
    alGet (alSet m k v) k' = if k = k' then some v else alGet m k' := by
  induction m with
  | nil => simp [alGet, alSet]
  | cons p rest ih =>
    obtain ⟨pk, pv⟩ := p
    by_cases h : pk = k
    · subst h
      by_cases h' : pk = k' <;> simp [alGet, alSet, h']
    · by_cases h' : pk = k'
      · subst h'
        simp [alGet, alSet, h, Ne.symm h]
      · simp [alGet, alSet, h, h', ih]

theorem mem_alSet {κ α : Type} [DecidableEq κ] {m : List (κ × α)} {k : κ} {v : α}
    {x : κ × α} (hx : x ∈ alSet m k v) : x = (k, v) ∨ x ∈ m := by
  induction m with
  | nil => simpa [alSet] using hx
  | cons p rest ih =>
    obtain ⟨pk, pv⟩ := p
    simp only [alSet] at hx
    split_ifs at hx with h
    · rcases List.mem_cons.mp hx with h1 | h1
      · exact Or.inl h1
      · exact Or.inr (List.mem_cons_of_mem _ h1)
    · rcases List.mem_cons.mp hx with h1 | h1
      · exact Or.inr (by simp [h1])
      · rcases ih h1 with h2 | h2
        · exact Or.inl h2
        · exact Or.inr (List.mem_cons_of_mem _ h2)

theorem alGet_mem {κ α : Type} [DecidableEq κ] {m : List (κ × α)} {k : κ} {v : α}
    (h : alGet m k = some v) : (k, v) ∈ m := by
  induction m with
  | nil => simp [alGet] at h
  | cons p rest ih =>
    obtain ⟨pk, pv⟩ := p
    simp only [alGet] at h
    split_ifs at h with hk
    · subst hk
      obtain rfl : pv = v := Option.some.inj h
      exact List.mem_cons_self _ _
    · exact List.mem_cons_of_mem _ (ih h)

theorem alGet_eq_none_of_not_mem_keys {κ α : Type} [DecidableEq κ] {m : List (κ × α)}
    {k : κ} (h : ∀ v, (k, v) ∉ m) : alGet m k = none := by
  induction m with
  | nil => simp [alGet]
  | cons p rest ih =>
    obtain ⟨pk, pv⟩ := p
    by_cases hk : pk = k
    · subst hk
      exact absurd (List.mem_cons_self _ _) (h pv)
    · simp only [alGet, if_neg hk]
      exact ih (fun v hv => h v (List.mem_cons_of_mem _ hv))

theorem keys_alSet_of_none {κ α : Type} [DecidableEq κ] (m : List (κ × α)) (k : κ) (v : α)
    (h : alGet m k = none) :
    (alSet m k v).map (fun p => p.1) = m.map (fun p => p.1) ++ [k] := by
  induction m with
  | nil => simp [alSet]
  | cons p rest ih =>
    obtain ⟨pk, pv⟩ := p
    by_cases hk : pk = k
    · subst hk
      simp [alGet] at h
    · simp only [alGet, if_neg hk] at h
      simp [alSet, hk, ih h]

theorem keys_alSet_of_some {κ α : Type} [DecidableEq κ] (m : List (κ × α)) (k : κ) (v : α)
    {w : α} (h : alGet m k = some w) :
    (alSet m k v).map (fun p => p.1) = m.map (fun p => p.1) := by
  induction m with
  | nil => simp [alGet] at h
  | cons p rest ih =>
    obtain ⟨pk, pv⟩ := p
    by_cases hk : pk = k
    · subst hk
      simp [alSet]
    · simp only [alGet, if_neg hk] at h
      simp [alSet, hk, ih h]

theorem mem_listAdd {l : List Nat} {x y : Nat} :
    y ∈ listAdd l x ↔ y ∈ l ∨ y = x := by
  unfold listAdd
  by_cases h : x ∈ l
  · simp only [if_pos h]
    constructor
    · exact fun hy => Or.inl hy
    · rintro (hy | rfl)
      · exact hy
      · exact h
  · simp [if_neg h]

theorem listAdd_nodup {l : List Nat} {x : Nat} (h : l.Nodup) : (listAdd l x).Nodup := by
  unfold listAdd
  by_cases hx : x ∈ l
  · simpa [hx]
  · simp [hx, List.nodup_append, h]

theorem subset_listAdd (l : List Nat) (x : Nat) : l ⊆ listAdd l x := by
  unfold listAdd
  by_cases hx : x ∈ l <;> simp [hx, List.subset_append_left]

theorem mem_listAdd_self (l : List Nat) (x : Nat) : x ∈ listAdd l x := by
  simp [mem_listAdd]

/-! ## Node accessor lemmas -/

theorem getMod_eq (g : ModuleGraph) (i : Nat) :
    g.getMod i = (g.mods[i]?).getD (ModuleNode.create "") := by
  simp [ModuleGraph.getMod, List.getD_eq_getElem?_getD]

theorem length_setMod (g : ModuleGraph) (i : Nat) (m : ModuleNode) :
    (g.setMod i m).mods.length = g.mods.length := by
  simp [ModuleGraph.setMod]

theorem getMod_setMod_self {g : ModuleGraph} {i : Nat} (m : ModuleNode)
    (h : i < g.mods.length) : (g.setMod i m).getMod i = m := by
  simp [getMod_eq, ModuleGraph.setMod, List.getElem?_set, h]

theorem getMod_setMod_of_ne {g : ModuleGraph} {i j : Nat} (m : ModuleNode)
    (h : i ≠ j) : (g.setMod i m).getMod j = g.getMod j := by
  simp [getMod_eq, ModuleGraph.setMod, List.getElem?_set, h]

theorem setMod_of_le {g : ModuleGraph} {i : Nat} (m : ModuleNode)
    (h : g.mods.length ≤ i) : g.setMod i m = g := by
  simp [ModuleGraph.setMod, List.set_eq_of_length_le h]

theorem getMod_of_le {g : ModuleGraph} {i : Nat} (h : g.mods.length ≤ i) :
    g.getMod i = ModuleNode.create "" := by
  simp [getMod_eq, List.getElem?_eq_none h]

theorem length_modifyMod (g : ModuleGraph) (i : Nat) (f : ModuleNode → ModuleNode) :
    (g.modifyMod i f).mods.length = g.mods.length := by
  simp [ModuleGraph.modifyMod, length_setMod]

theorem getMod_modifyMod_self {g : ModuleGraph} {i : Nat} (f : ModuleNode → ModuleNode)
    (h : i < g.mods.length) : (g.modifyMod i f).getMod i = f (g.getMod i) := by
  simp [ModuleGraph.modifyMod, getMod_setMod_self _ h]

theorem getMod_modifyMod_of_ne {g : ModuleGraph} {i j : Nat} (f : ModuleNode → ModuleNode)
    (h : i ≠ j) : (g.modifyMod i f).getMod j = g.getMod j := by
  simp [ModuleGraph.modifyMod, getMod_setMod_of_ne _ h]

theorem getMod_mem {g : ModuleGraph} {i : Nat} (h : i < g.mods.length) :
    g.getMod i ∈ g.mods := by
  rw [getMod_eq, List.getElem?_eq_getElem h]
  exact List.getElem_mem h

/-! ## Cascade frame -/

theorem CascadeFrame.refl (g : ModuleGraph) (seen : List Nat) :
    CascadeFrame g g seen seen := by
  refine ⟨Set.Subset.rfl, rfl, ?_, rfl, rfl, rfl, rfl, rfl⟩
  intro j
  simp

theorem CascadeFrame.trans {g g₁ g₂ : ModuleGraph} {s s₁ s₂ : List Nat}
    (h1 : CascadeFrame g g₁ s s₁) (h2 : CascadeFrame g₁ g₂ s₁ s₂) :
    CascadeFrame g g₂ s s₂ := by
  obtain ⟨hs1, hl1, hg1, hu1, hi1, hf1, hr1, hp1⟩ := h1
  obtain ⟨hs2, hl2, hg2, hu2, hi2, hf2, hr2, hp2⟩ := h2
  refine ⟨fun x hx => hs2 (hs1 hx), hl2.trans hl1, ?_, hu2.trans hu1, hi2.trans hi1,
    hf2.trans hf1, hr2.trans hr1, hp2.trans hp1⟩
  intro j
  rw [hg2 j, hg1 j]
  by_cases hj2 : j ∈ s₂
  · by_cases hj0 : j ∈ s
    · have hj1 : j ∈ s₁ := hs1 hj0
      simp [hj2, hj0, hj1]
    · by_cases hj1 : j ∈ s₁
      · simp [hj2, hj0, hj1]
      · simp [hj2, hj0, hj1]
  · have hj1 : j ∉ s₁ := fun h => hj2 (hs2 h)
    have hj0 : j ∉ s := fun h => hj1 (hs1 h)
    simp [hj2, hj1, hj0]

theorem CascadeFrame.getMod_importers {g g' : ModuleGraph} {s s' : List Nat}
    (h : CascadeFrame g g' s s') (j : Nat) :
    (g'.getMod j).importers = (g.getMod j).importers := by
  rw [h.2.2.1 j]
  by_cases hj : j ∈ s' ∧ j ∉ s <;> simp [hj]

theorem CascadeFrame.impFun_eq {g g' : ModuleGraph} {s s' : List Nat}
    (h : CascadeFrame g g' s s') : g'.impFun = g.impFun := by
  funext j
  exact h.getMod_importers j

/-! ## Well-formedness -/

/-- Edge well-formedness only depends on length and the edge lists. -/
theorem EdgesWF_congr {g g' : ModuleGraph}
    (hl : g'.mods.length = g.mods.length)
    (him : ∀ j, (g'.getMod j).importers = (g.getMod j).importers)
    (himp : ∀ j, (g'.getMod j).importedModules = (g.getMod j).importedModules)
    (h : EdgesWF g) : EdgesWF g' := by
  intro j hj
  rw [hl] at hj
  obtain ⟨h1, h2, h3, h4⟩ := h j hj
  rw [hl, him j, himp j]
  exact ⟨h1, h2, h3, h4⟩

theorem CascadeFrame.getMod_importedModules {g g' : ModuleGraph} {s s' : List Nat}
    (h : CascadeFrame g g' s s') (j : Nat) :
    (g'.getMod j).importedModules = (g.getMod j).importedModules := by
  rw [h.2.2.1 j]
  by_cases hj : j ∈ s' ∧ j ∉ s <;> simp [hj]

theorem CascadeFrame.edgesWF {g g' : ModuleGraph} {s s' : List Nat}
    (h : CascadeFrame g g' s s') (hwf : EdgesWF g) : EdgesWF g' :=
  EdgesWF_congr h.2.1 h.getMod_importers h.getMod_importedModules hwf

/-- The single clear step of the cascade is a cascade frame. -/
theorem clearStep_frame (g : ModuleGraph) (m : Nat) (seen : List Nat) (hm : m ∉ seen) :
    CascadeFrame g (g.modifyMod m (fun node => { node with ssrModule := none }))
      seen (m :: seen) := by
  refine ⟨fun x hx => List.mem_cons_of_mem _ hx, by simp [length_modifyMod], ?_,
    rfl, rfl, rfl, rfl, rfl⟩
  intro j
  by_cases hj : j = m
  · subst hj
    simp only [List.mem_cons, true_or, true_and, hm, not_false_iff, if_pos]
    by_cases hlt : j < g.mods.length
    · rw [getMod_modifyMod_self _ hlt]
    · have hle : g.mods.length ≤ j := Nat.le_of_not_lt hlt
      rw [ModuleGraph.modifyMod, setMod_of_le _ hle, getMod_of_le hle]
      rfl
  · rw [getMod_modifyMod_of_ne _ (Ne.symm hj)]
    have hneg : ¬ (j ∈ m :: seen ∧ j ∉ seen) := by
      rintro ⟨hj1, hj2⟩
      rcases List.mem_cons.mp hj1 with h | h
      · exact hj h
      · exact hj2 h
    rw [if_neg hneg]

/-- Frame property of the importer loop, given the frame property of the
cascade step at the same fuel. -/
theorem cascadeList_frame {fuel : Nat}
    (hgo : ∀ g m seen g' seen', invalidateSSRGo fuel g m seen = some (g', seen') →
      CascadeFrame g g' seen seen') :
    ∀ l g seen g' seen', cascadeList (invalidateSSRGo fuel) g l seen = some (g', seen') →
      CascadeFrame g g' seen seen' := by
  intro l
  induction l with
  | nil =>
    intro g seen g' seen' h
    simp only [cascadeList, Option.some.injEq, Prod.mk.injEq] at h
    obtain ⟨rfl, rfl⟩ := h
    exact CascadeFrame.refl g seen
  | cons i rest ih =>
    intro g seen g' seen' h
    simp only [cascadeList] at h
    rcases hgi : invalidateSSRGo fuel g i seen with _ | r
    · rw [hgi] at h
      cases h
    · rw [hgi] at h
      exact (hgo _ _ _ _ _ hgi).trans (ih _ _ _ _ h)

/-- Frame property of the SSR cascade: it grows `seen`, clears `ssrModule`
on exactly the newly seen nodes, and changes nothing else. -/
theorem invalidateSSRGo_frame : ∀ fuel g m seen g' seen',
    invalidateSSRGo fuel g m seen = some (g', seen') → CascadeFrame g g' seen seen' := by
  intro fuel
  induction fuel with
  | zero =>
    intro g m seen g' seen' h
    simp [invalidateSSRGo] at h
  | succ fuel ih =>
    intro g m seen g' seen' h
    by_cases hm : m ∈ seen
    · simp only [invalidateSSRGo, if_pos hm, Option.some.injEq, Prod.mk.injEq] at h
      obtain ⟨rfl, rfl⟩ := h
      exact CascadeFrame.refl g seen
    · simp only [invalidateSSRGo, if_neg hm] at h
      exact (clearStep_frame g m seen hm).trans (cascadeList_frame ih _ _ _ _ _ h)

theorem unseenCard_mono {g g' : ModuleGraph} {seen seen' : List Nat}
    (hl : g'.mods.length = g.mods.length) (hs : seen ⊆ seen') :
    unseenCard g' seen' ≤ unseenCard g seen := by
  unfold unseenCard
  rw [hl]
  apply Finset.card_le_card
  apply Finset.sdiff_subset_sdiff Finset.Subset.rfl
  intro x hx
  rw [List.mem_toFinset] at hx ⊢
  exact hs hx

theorem unseenCard_cons_lt {g : ModuleGraph} {seen : List Nat} {m : Nat}
    (hm : m < g.mods.length) (hmem : m ∉ seen) :
    unseenCard g (m :: seen) < unseenCard g seen := by
  unfold unseenCard
  apply Finset.card_lt_card
  constructor
  · apply Finset.sdiff_subset_sdiff Finset.Subset.rfl
    intro x hx
    rw [List.mem_toFinset] at hx ⊢
    exact List.mem_cons_of_mem _ hx
  · intro hsub
    have hm1 : m ∈ Finset.range g.mods.length \ seen.toFinset := by
      simp [Finset.mem_sdiff, Finset.mem_range, hm, hmem]
    have hm2 := hsub hm1
    simp [Finset.mem_sdiff] at hm2

/-- Fuel sufficiency for the importer loop, given fuel sufficiency of the
cascade step at the same fuel. -/
theorem cascadeList_some {fuel : Nat}
    (hgo : ∀ g m seen, EdgesWF g → m < g.mods.length → unseenCard g seen < fuel →
      ∃ r, invalidateSSRGo fuel g m seen = some r) :
    ∀ l g seen, EdgesWF g → (∀ i ∈ l, i < g.mods.length) → unseenCard g seen < fuel →
      ∃ r, cascadeList (invalidateSSRGo fuel) g l seen = some r := by
  intro l
  induction l with
  | nil =>
    intro g seen _ _ _
    exact ⟨(g, seen), rfl⟩
  | cons i rest ih =>
    intro g seen hwf hb hcard
    obtain ⟨⟨g₁, seen₁⟩, h1⟩ := hgo g i seen hwf (hb i (List.mem_cons_self _ _)) hcard
    have hfr := invalidateSSRGo_frame fuel g i seen g₁ seen₁ h1
    have hlen : g₁.mods.length = g.mods.length := hfr.2.1
    obtain ⟨r, h2⟩ := ih g₁ seen₁ (hfr.edgesWF hwf)
      (fun x hx => hlen ▸ hb x (List.mem_cons_of_mem _ hx))
      (Nat.lt_of_le_of_lt (unseenCard_mono hlen hfr.1) hcard)
    refine ⟨r, ?_⟩
    simp only [cascadeList, h1]
    exact h2

/-- Fuel sufficiency of the SSR cascade: on a well-formed graph, fuel
exceeding the number of unseen registered nodes never runs out. -/
theorem invalidateSSRGo_some : ∀ fuel g m seen, EdgesWF g → m < g.mods.length →
    unseenCard g seen < fuel → ∃ r, invalidateSSRGo fuel g m seen = some r := by
  intro fuel
  induction fuel with
  | zero =>
    intro g m seen _ _ hcard
    exact absurd hcard (Nat.not_lt_zero _)
  | succ fuel ih =>
    intro g m seen hwf hm hcard
    by_cases hmem : m ∈ seen
    · exact ⟨(g, seen), by simp [invalidateSSRGo, if_pos hmem]⟩
    · have hfr := clearStep_frame g m seen hmem
      have hlen : (g.modifyMod m (fun node => { node with ssrModule := none })).mods.length
          = g.mods.length := hfr.2.1
      have hwf1 : EdgesWF (g.modifyMod m (fun node => { node with ssrModule := none })) :=
        hfr.edgesWF hwf
      have hb : ∀ i ∈ ((g.modifyMod m (fun node => { node with ssrModule := none })).getMod m).importers,
          i < (g.modifyMod m (fun node => { node with ssrModule := none })).mods.length := by
        rw [hfr.getMod_importers m, hlen]
        exact (hwf m hm).2.1
      have hcard1 : unseenCard (g.modifyMod m (fun node => { node with ssrModule := none }))
          (m :: seen) < fuel := by
        have h1 : unseenCard g (m :: seen) < unseenCard g seen := unseenCard_cons_lt hm hmem
        have h2 : unseenCard (g.modifyMod m (fun node => { node with ssrModule := none }))
            (m :: seen) ≤ unseenCard g (m :: seen) :=
          unseenCard_mono hlen (List.Subset.refl _)
        omega
      obtain ⟨r, h2⟩ := cascadeList_some ih
        ((g.modifyMod m (fun node => { node with ssrModule := none })).getMod m).importers
        (g.modifyMod m (fun node => { node with ssrModule := none })) (m :: seen) hwf1 hb hcard1
      refine ⟨r, ?_⟩
      simp only [invalidateSSRGo, if_neg hmem]
      exact h2

/-! ## Reachability along importer edges -/

theorem ReachAvoid.mono {imp : Nat → List Nat} {avoid avoid' : List Nat}
    (hsub : avoid' ⊆ avoid) {m j : Nat} (h : ReachAvoid imp avoid m j) :
    ReachAvoid imp avoid' m j := by
  induction h with
  | refl m hm => exact ReachAvoid.refl m (fun hx => hm (hsub hx))
  | step m i j hm hi _ ih => exact ReachAvoid.step m i j (fun hx => hm (hsub hx)) hi ih

theorem ReachAvoid.mem_of_closed {imp : Nat → List Nat} {avoid : List Nat} {S : List Nat}
    {m j : Nat} (h : ReachAvoid imp avoid m j) (hm : m ∈ S)
    (hcl : ∀ n ∈ S, n ∉ avoid → ∀ i ∈ imp n, i ∈ S) : j ∈ S := by
  induction h with
  | refl m _ => exact hm
  | step m i j hma hi _ ih => exact ih (hcl m hm hma i hi)

/-- Soundness of the visited set for the importer loop. -/
theorem cascadeList_seen_sound {fuel : Nat}
    (hgo : ∀ g m seen g' seen', invalidateSSRGo fuel g m seen = some (g', seen') →
      ∀ j ∈ seen', j ∈ seen ∨ ReachAvoid g.impFun seen m j) :
    ∀ l g seen g' seen', cascadeList (invalidateSSRGo fuel) g l seen = some (g', seen') →
      ∀ j ∈ seen', j ∈ seen ∨ ∃ i ∈ l, ReachAvoid g.impFun seen i j := by
  intro l
  induction l with
  | nil =>
    intro g seen g' seen' h j hj
    simp only [cascadeList, Option.some.injEq, Prod.mk.injEq] at h
    obtain ⟨rfl, rfl⟩ := h
    exact Or.inl hj
  | cons i rest ih =>
    intro g seen g' seen' h j hj
    simp only [cascadeList] at h
    rcases hgi : invalidateSSRGo fuel g i seen with _ | r
    · rw [hgi] at h
      cases h
    · rw [hgi] at h
      obtain ⟨g₁, seen₁⟩ := r
      have hfr := invalidateSSRGo_frame fuel g i seen g₁ seen₁ hgi
      rcases ih g₁ seen₁ g' seen' h j hj with hj1 | ⟨i', hi', hra⟩
      · rcases hgo g i seen g₁ seen₁ hgi j hj1 with hj2 | hj2
        · exact Or.inl hj2
        · exact Or.inr ⟨i, List.mem_cons_self _ _, hj2⟩
      · rw [hfr.impFun_eq] at hra
        exact Or.inr ⟨i', List.mem_cons_of_mem _ hi', hra.mono hfr.1⟩

/-- Soundness of the visited set of the cascade: everything newly seen is
reachable from the start along importer edges avoiding the initial set. -/
theorem invalidateSSRGo_seen_sound : ∀ fuel g m seen g' seen',
    invalidateSSRGo fuel g m seen = some (g', seen') →
    ∀ j ∈ seen', j ∈ seen ∨ ReachAvoid g.impFun seen m j := by
  intro fuel
  induction fuel with
  | zero =>
    intro g m seen g' seen' h
    simp [invalidateSSRGo] at h
  | succ fuel ih =>
    intro g m seen g' seen' h j hj
    by_cases hmem : m ∈ seen
    · simp only [invalidateSSRGo, if_pos hmem, Option.some.injEq, Prod.mk.injEq] at h
      obtain ⟨rfl, rfl⟩ := h
      exact Or.inl hj
    · simp only [invalidateSSRGo, if_neg hmem] at h
      have hfr := clearStep_frame g m seen hmem
      rcases cascadeList_seen_sound ih _ _ _ _ _ h j hj with hj1 | ⟨i, hi, hra⟩
      · rcases List.mem_cons.mp hj1 with rfl | hj2
        · exact Or.inr (ReachAvoid.refl j hmem)
        · exact Or.inl hj2
      · rw [hfr.impFun_eq] at hra
        rw [hfr.getMod_importers m] at hi
        have hra' : ReachAvoid g.impFun seen i j :=
          hra.mono (fun x hx => List.mem_cons_of_mem _ hx)
        exact Or.inr (ReachAvoid.step m i j hmem hi hra')

/-- Completeness of the visited set for the importer loop. -/
theorem cascadeList_seen_complete {fuel : Nat}
    (hgo : ∀ g m seen g' seen', invalidateSSRGo fuel g m seen = some (g', seen') →
      m ∈ seen' ∧ ∀ n ∈ seen', n ∉ seen → ∀ i ∈ g.impFun n, i ∈ seen') :
    ∀ l g seen g' seen', cascadeList (invalidateSSRGo fuel) g l seen = some (g', seen') →
      (∀ i ∈ l, i ∈ seen') ∧ ∀ n ∈ seen', n ∉ seen → ∀ i ∈ g.impFun n, i ∈ seen' := by
  intro l
  induction l with
  | nil =>
    intro g seen g' seen' h
    simp only [cascadeList, Option.some.injEq, Prod.mk.injEq] at h
    obtain ⟨rfl, rfl⟩ := h
    exact ⟨fun i hi => absurd hi (List.not_mem_nil i), fun n hn hn' _ _ => absurd hn hn'⟩
  | cons i rest ih =>
    intro g seen g' seen' h
    simp only [cascadeList] at h
    rcases hgi : invalidateSSRGo fuel g i seen with _ | r
    · rw [hgi] at h
      cases h
    · rw [hgi] at h
      obtain ⟨g₁, seen₁⟩ := r
      have hfr1 := invalidateSSRGo_frame fuel g i seen g₁ seen₁ hgi
      have hfr2 := cascadeList_frame (invalidateSSRGo_frame fuel) rest g₁ seen₁ g' seen' h
      obtain ⟨hi1, hcl1⟩ := hgo g i seen g₁ seen₁ hgi
      obtain ⟨hrest, hcl2⟩ := ih g₁ seen₁ g' seen' h
      rw [hfr1.impFun_eq] at hcl2
      refine ⟨?_, ?_⟩
      · intro x hx
        rcases List.mem_cons.mp hx with rfl | hx'
        · exact hfr2.1 hi1
        · exact hrest x hx'
      · intro n hn hn' x hx
        by_cases hn1 : n ∈ seen₁
        · exact hfr2.1 (hcl1 n hn1 hn' x hx)
        · exact hcl2 n hn hn1 x hx

/-- Completeness of the visited set of the cascade: the start node ends up
seen, and the new part of the visited set is closed under importer edges. -/
theorem invalidateSSRGo_seen_complete : ∀ fuel g m seen g' seen',
    invalidateSSRGo fuel g m seen = some (g', seen') →
    m ∈ seen' ∧ ∀ n ∈ seen', n ∉ seen → ∀ i ∈ g.impFun n, i ∈ seen' := by
  intro fuel
  induction fuel with
  | zero =>
    intro g m seen g' seen' h
    simp [invalidateSSRGo] at h
  | succ fuel ih =>
    intro g m seen g' seen' h
    by_cases hmem : m ∈ seen
    · simp only [invalidateSSRGo, if_pos hmem, Option.some.injEq, Prod.mk.injEq] at h
      obtain ⟨rfl, rfl⟩ := h
      exact ⟨hmem, fun n hn hn' _ _ => absurd hn hn'⟩
    · simp only [invalidateSSRGo, if_neg hmem] at h
      have hfr := clearStep_frame g m seen hmem
      have hfr2 := cascadeList_frame (invalidateSSRGo_frame fuel) _ _ _ _ _ h
      obtain ⟨hall, hcl⟩ := cascadeList_seen_complete ih _ _ _ _ _ h
      rw [hfr.impFun_eq] at hcl
      rw [hfr.getMod_importers m] at hall
      refine ⟨hfr2.1 (List.mem_cons_self _ _), ?_⟩
      intro n hn hn' x hx
      by_cases hnm : n = m
      · subst hnm
        exact hall x hx
      · refine hcl n hn ?_ x hx
        intro hmm
        rcases List.mem_cons.mp hmm with h1 | h1
        · exact hnm h1
        · exact hn' h1

/-- The visited set of a successful cascade run, exactly: the old set plus
everything reachable from the start while avoiding it. -/
theorem invalidateSSRGo_seen_iff {fuel : Nat} {g : ModuleGraph} {m : Nat}
    {seen seen' : List Nat} {g' : ModuleGraph}
    (h : invalidateSSRGo fuel g m seen = some (g', seen')) (j : Nat) :
    j ∈ seen' ↔ j ∈ seen ∨ ReachAvoid g.impFun seen m j := by
  constructor
  · exact fun hj => invalidateSSRGo_seen_sound fuel g m seen g' seen' h j hj
  · rintro (hj | hj)
    · exact (invalidateSSRGo_frame fuel g m seen g' seen' h).1 hj
    · obtain ⟨hm, hcl⟩ := invalidateSSRGo_seen_complete fuel g m seen g' seen' h
      exact hj.mem_of_closed hm hcl

/-! ## Invalidation at the operation level -/

/-- A field untouched by a node modification is untouched on every node. -/
theorem getMod_modifyMod_proj {β : Type} (π : ModuleNode → β) (g : ModuleGraph) (m : Nat)
    (f : ModuleNode → ModuleNode) (hf : ∀ x, π (f x) = π x) (j : Nat) :
    π ((g.modifyMod m f).getMod j) = π (g.getMod j) := by
  by_cases hj : j = m
  · subst hj
    by_cases hlt : j < g.mods.length
    · rw [getMod_modifyMod_self _ hlt, hf]
    · rw [ModuleGraph.modifyMod, setMod_of_le _ (Nat.le_of_not_lt hlt)]
  · rw [getMod_modifyMod_of_ne _ (Ne.symm hj)]

theorem impFun_modifyMod {g : ModuleGraph} {m : Nat} {f : ModuleNode → ModuleNode}
    (hf : ∀ x, (f x).importers = x.importers) :
    (g.modifyMod m f).impFun = g.impFun := by
  funext j
  exact getMod_modifyMod_proj (fun x => x.importers) g m f hf j

theorem edgesWF_modifyMod {g : ModuleGraph} {m : Nat} {f : ModuleNode → ModuleNode}
    (hf1 : ∀ x, (f x).importers = x.importers)
    (hf2 : ∀ x, (f x).importedModules = x.importedModules)
    (h : EdgesWF g) : EdgesWF (g.modifyMod m f) :=
  EdgesWF_congr (length_modifyMod g m f)
    (getMod_modifyMod_proj (fun x => x.importers) g m f hf1)
    (getMod_modifyMod_proj (fun x => x.importedModules) g m f hf2) h

theorem unseenCard_le (g : ModuleGraph) (seen : List Nat) :
    unseenCard g seen ≤ g.mods.length := by
  unfold unseenCard
  calc (Finset.range g.mods.length \ seen.toFinset).card
      ≤ (Finset.range g.mods.length).card := Finset.card_le_card Finset.sdiff_subset
    _ = g.mods.length := Finset.card_range _

/-- The cascade preserves duplicate-freeness of the seen list (the importer
loop version). -/
theorem cascadeList_nodup {fuel : Nat}
    (hgo : ∀ g m seen g' seen', invalidateSSRGo fuel g m seen = some (g', seen') →
      seen.Nodup → seen'.Nodup) :
    ∀ l g seen g' seen', cascadeList (invalidateSSRGo fuel) g l seen = some (g', seen') →
      seen.Nodup → seen'.Nodup := by
  intro l
  induction l with
  | nil =>
    intro g seen g' seen' h hn
    simp only [cascadeList, Option.some.injEq, Prod.mk.injEq] at h
    obtain ⟨rfl, rfl⟩ := h
    exact hn
  | cons i rest ih =>
    intro g seen g' seen' h hn
    simp only [cascadeList] at h
    rcases hgi : invalidateSSRGo fuel g i seen with _ | r
    · rw [hgi] at h
      cases h
    · rw [hgi] at h
      exact ih r.1 r.2 g' seen' h (hgo g i seen r.1 r.2 hgi hn)

/-- The cascade preserves duplicate-freeness of the seen list: every node is
added at most once. -/
theorem invalidateSSRGo_nodup : ∀ fuel g m seen g' seen',
    invalidateSSRGo fuel g m seen = some (g', seen') → seen.Nodup → seen'.Nodup := by
  intro fuel
  induction fuel with
  | zero =>
    intro g m seen g' seen' h
    simp [invalidateSSRGo] at h
  | succ fuel ih =>
    intro g m seen g' seen' h hn
    by_cases hmem : m ∈ seen
    · simp only [invalidateSSRGo, if_pos hmem, Option.some.injEq, Prod.mk.injEq] at h
      obtain ⟨rfl, rfl⟩ := h
      exact hn
    · simp only [invalidateSSRGo, if_neg hmem] at h
      exact cascadeList_nodup ih _ _ _ _ _ h (List.nodup_cons.mpr ⟨hmem, hn⟩)

/-- The node modification at the head of `invalidateModule` keeps importers. -/
theorem clearCaches_importers :
    ∀ x : ModuleNode,
      ({ x with info := none, transformResult := none, ssrTransformResult := none } :
        ModuleNode).importers = x.importers :=
  fun _ => rfl

/-- `invalidateModule` always succeeds on a well-formed graph: the supplied
fuel exceeds the number of nodes, which bounds every cascade. -/
theorem invalidateModule_some (g : ModuleGraph) (m : Nat) (seen : List Nat)
    (hwf : EdgesWF g) (hm : m < g.mods.length) :
    ∃ r, g.invalidateModule m seen = some r := by
  unfold ModuleGraph.invalidateModule invalidateSSRModule
  apply invalidateSSRGo_some
  · exact edgesWF_modifyMod (fun _ => rfl) (fun _ => rfl) hwf
  · rw [length_modifyMod]
    exact hm
  · exact Nat.lt_succ_of_le (unseenCard_le _ _)

/-- Full description of `invalidateModule` from the empty seen set: the seen
set is exactly the importer-reachable set, the target node loses its info,
transform caches and SSR instance, every other reachable node loses exactly
its SSR instance, unreachable nodes and all indices are untouched. -/
theorem invalidateModule_spec {g : ModuleGraph} {m : Nat} {g' : ModuleGraph}
    {seen' : List Nat} (h : g.invalidateModule m [] = some (g', seen'))
    (hm : m < g.mods.length) :
    (∀ j, j ∈ seen' ↔ ImporterReach g m j) ∧
    seen'.Nodup ∧
    g'.getMod m = { g.getMod m with
        info := none, transformResult := none,
        ssrTransformResult := none, ssrModule := none } ∧
    (∀ n, n ≠ m → (ImporterReach g m n → g'.getMod n = { g.getMod n with ssrModule := none }) ∧
      (¬ ImporterReach g m n → g'.getMod n = g.getMod n)) ∧
    g'.urlToModuleMap = g.urlToModuleMap ∧
    g'.idToModuleMap = g.idToModuleMap ∧
    g'.fileToModulesMap = g.fileToModulesMap ∧
    g'.mods.length = g.mods.length := by
  unfold ModuleGraph.invalidateModule invalidateSSRModule at h
  have hfr := invalidateSSRGo_frame _ _ _ _ _ _ h
  have himp : (g.modifyMod m (fun node =>
      { node with info := none, transformResult := none, ssrTransformResult := none })).impFun
      = g.impFun := impFun_modifyMod (fun _ => rfl)
  have hiff : ∀ j, j ∈ seen' ↔ ImporterReach g m j := by
    intro j
    rw [invalidateSSRGo_seen_iff h j, himp]
    simp [ImporterReach]
  have hnodup : seen'.Nodup := invalidateSSRGo_nodup _ _ _ _ _ _ h List.nodup_nil
  have hmem : m ∈ seen' := (hiff m).mpr (ReachAvoid.refl m (List.not_mem_nil m))
  refine ⟨hiff, hnodup, ?_, ?_, hfr.2.2.2.1, hfr.2.2.2.2.1, hfr.2.2.2.2.2.1, ?_⟩
  · have := hfr.2.2.1 m
    rw [if_pos ⟨hmem, List.not_mem_nil m⟩] at this
    rw [this, getMod_modifyMod_self _ hm]
  · intro n hn
    have hmain := hfr.2.2.1 n
    have hbase : (g.modifyMod m (fun node =>
        { node with info := none, transformResult := none, ssrTransformResult := none })).getMod n
        = g.getMod n := getMod_modifyMod_of_ne _ (Ne.symm hn)
    constructor
    · intro hr
      rw [if_pos ⟨(hiff n).mpr hr, List.not_mem_nil n⟩, hbase] at hmain
      exact hmain
    · intro hr
      have : ¬ (n ∈ seen' ∧ n ∉ []) := fun hc => hr ((hiff n).mp hc.1)
      rw [if_neg this, hbase] at hmain
      exact hmain
  · rw [hfr.2.1, length_modifyMod]

/-- Effects of one `invalidateModule` call needed to chain further calls. -/
theorem invalidateModule_effects {g : ModuleGraph} {m : Nat} {seen : List Nat}
    {g' : ModuleGraph} {seen' : List Nat}
    (h : g.invalidateModule m seen = some (g', seen')) :
    g'.mods.length = g.mods.length ∧ seen ⊆ seen' ∧ (EdgesWF g → EdgesWF g') ∧
    g'.urlToModuleMap = g.urlToModuleMap ∧ g'.idToModuleMap = g.idToModuleMap ∧
    g'.fileToModulesMap = g.fileToModulesMap := by
  unfold ModuleGraph.invalidateModule invalidateSSRModule at h
  have hfr := invalidateSSRGo_frame _ _ _ _ _ _ h
  refine ⟨hfr.2.1.trans (length_modifyMod _ _ _), hfr.1, ?_, hfr.2.2.2.1, hfr.2.2.2.2.1,
    hfr.2.2.2.2.2.1⟩
  intro hwf
  exact hfr.edgesWF (edgesWF_modifyMod (fun _ => rfl) (fun _ => rfl) hwf)

/-- Termination of a threaded sequence of invalidations. -/
theorem invalidateList_some : ∀ (ids : List Nat) (g : ModuleGraph) (seen : List Nat),
    EdgesWF g → (∀ i ∈ ids, i < g.mods.length) →
    ∃ r, invalidateList g ids seen = some r := by
  intro ids
  induction ids with
  | nil => exact fun g seen _ _ => ⟨(g, seen), rfl⟩
  | cons i rest ih =>
    intro g seen hwf hb
    obtain ⟨⟨g₁, seen₁⟩, h1⟩ :=
      invalidateModule_some g i seen hwf (hb i (List.mem_cons_self _ _))
    have he := invalidateModule_effects h1
    obtain ⟨r, h2⟩ := ih g₁ seen₁ (he.2.2.1 hwf)
      (fun x hx => he.1 ▸ hb x (List.mem_cons_of_mem _ hx))
    refine ⟨r, ?_⟩
    simp only [invalidateList, h1]
    exact h2

/-- `invalidateAll` terminates on a well-formed graph. -/
theorem invalidateAll_some (g : ModuleGraph) (hwf : EdgesWF g) (hmwf : MapsWF g) :
    ∃ g', g.invalidateAll = some g' := by
  have hb : ∀ i ∈ g.idToModuleMap.map (fun p => p.2), i < g.mods.length := by
    intro i hi
    obtain ⟨p, hp, rfl⟩ := List.mem_map.mp hi
    exact hmwf.2.1 p hp
  obtain ⟨r, hr⟩ := invalidateList_some _ g [] hwf hb
  exact ⟨r.1, by rw [ModuleGraph.invalidateAll, hr]; rfl⟩

/-- `onFileChange` terminates on a well-formed graph. -/
theorem onFileChange_some (g : ModuleGraph) (file : String)
    (hwf : EdgesWF g) (hmwf : MapsWF g) :
    ∃ g', g.onFileChange file = some g' := by
  rcases hget : alGet g.fileToModulesMap file with _ | mods
  · exact ⟨g, by rw [ModuleGraph.onFileChange, hget]⟩
  · have hb : ∀ i ∈ mods, i < g.mods.length :=
      fun i hi => hmwf.2.2 (file, mods) (alGet_mem hget) i hi
    obtain ⟨r, hr⟩ := invalidateList_some mods g [] hwf hb
    refine ⟨r.1, ?_⟩
    rw [ModuleGraph.onFileChange, hget]
    simp only [hr, Option.map_some']

/-! ## Claim theorems -/

/-- C4: invalidating a node clears that node's own info, transformResult and
ssrTransformResult (and its ssrModule), and clears only the ssrModule field
on every transitively reachable importer; every node other than the directly
invalidated one keeps all other fields (url, id, file, edges, transform
caches) unchanged, unreachable nodes are untouched, and no index changes. -/
theorem C4_ssr_cascade_frame (g : ModuleGraph) (m : Nat)
    (hwf : EdgesWF g) (hm : m < g.mods.length) :
    ∃ g' seen', g.invalidateModule m [] = some (g', seen') ∧
      g'.getMod m = { g.getMod m with
        info := none, transformResult := none, ssrTransformResult := none,
        ssrModule := none } ∧
      (∀ n, n ≠ m → ImporterReach g m n →
        g'.getMod n = { g.getMod n with ssrModule := none }) ∧
      (∀ n, n ≠ m → ¬ ImporterReach g m n → g'.getMod n = g.getMod n) ∧
      g'.urlToModuleMap = g.urlToModuleMap ∧ g'.idToModuleMap = g.idToModuleMap ∧
      g'.fileToModulesMap = g.fileToModulesMap := by
  obtain ⟨⟨g', seen'⟩, h⟩ := invalidateModule_some g m [] hwf hm
  obtain ⟨hiff, hnd, hm1, hn, hu, hi, hf, hl⟩ := invalidateModule_spec h hm
  exact ⟨g', seen', h, hm1, fun n hne hr => (hn n hne).1 hr,
    fun n hne hr => (hn n hne).2 hr, hu, hi, hf⟩

/-- Witness for C4 on the three-cycle graph. -/
theorem C4_ssr_cascade_frame_witness :
    ∃ g' seen', wCycleGraph.invalidateModule 0 [] = some (g', seen') ∧
      g'.getMod 0 = { wCycleGraph.getMod 0 with
        info := none, transformResult := none, ssrTransformResult := none,
        ssrModule := none } ∧
      (∀ n, n ≠ 0 → ImporterReach wCycleGraph 0 n →
        g'.getMod n = { wCycleGraph.getMod n with ssrModule := none }) ∧
      (∀ n, n ≠ 0 → ¬ ImporterReach wCycleGraph 0 n → g'.getMod n = wCycleGraph.getMod n) ∧
      g'.urlToModuleMap = wCycleGraph.urlToModuleMap ∧
      g'.idToModuleMap = wCycleGraph.idToModuleMap ∧
      g'.fileToModulesMap = wCycleGraph.fileToModulesMap :=
  C4_ssr_cascade_frame wCycleGraph 0 (by decide) (by decide)

/-- C5: on any well-formed graph (cyclic ones included) the invalidation
cascade terminates; from an empty seen set it visits exactly the
importer-reachable nodes, each exactly once (the seen list is
duplicate-free); a node already in the threaded seen set is not revisited;
and invalidateAll and onFileChange, which thread one shared seen set,
terminate. -/
theorem C5_cascade_termination (g : ModuleGraph) (m : Nat)
    (hwf : EdgesWF g) (hmwf : MapsWF g) (hm : m < g.mods.length) :
    (∃ g' seen', g.invalidateModule m [] = some (g', seen') ∧
      (∀ j, j ∈ seen' ↔ ImporterReach g m j) ∧ seen'.Nodup) ∧
    (∀ (fuel : Nat) (g₀ : ModuleGraph) (m₀ : Nat) (seen : List Nat), m₀ ∈ seen →
      invalidateSSRModule g₀ m₀ seen (fuel + 1) = some (g₀, seen)) ∧
    (∃ g', g.invalidateAll = some g') ∧
    (∀ file, ∃ g', g.onFileChange file = some g') := by
  refine ⟨?_, ?_, invalidateAll_some g hwf hmwf, fun file => onFileChange_some g file hwf hmwf⟩
  · obtain ⟨⟨g', seen'⟩, h⟩ := invalidateModule_some g m [] hwf hm
    obtain ⟨hiff, hnd, _⟩ := invalidateModule_spec h hm
    exact ⟨g', seen', h, hiff, hnd⟩
  · intro fuel g₀ m₀ seen hmem
    simp [invalidateSSRModule, invalidateSSRGo, if_pos hmem]

/-- Witness for C5 on the three-cycle graph. -/
theorem C5_cascade_termination_witness :
    (∃ g' seen', wCycleGraph.invalidateModule 0 [] = some (g', seen') ∧
      (∀ j, j ∈ seen' ↔ ImporterReach wCycleGraph 0 j) ∧ seen'.Nodup) ∧
    (∀ (fuel : Nat) (g₀ : ModuleGraph) (m₀ : Nat) (seen : List Nat), m₀ ∈ seen →
      invalidateSSRModule g₀ m₀ seen (fuel + 1) = some (g₀, seen)) ∧
    (∃ g', wCycleGraph.invalidateAll = some g') ∧
    (∀ file, ∃ g', wCycleGraph.onFileChange file = some g') :=
  C5_cascade_termination wCycleGraph 0 (by decide) (by decide) (by decide)

/-! ## URL canonicalization lemmas -/

theorem takeWhile_reverse_suffix (p : Char → Bool) (l : List Char) :
    (l.reverse.takeWhile p).reverse <:+ l := by
  refine ⟨(l.reverse.dropWhile p).reverse, ?_⟩
  rw [← List.reverse_append, List.takeWhile_append_dropWhile, List.reverse_reverse]

theorem basenameChars_suffix (l : List Char) : basenameChars l <:+ l := by
  unfold basenameChars
  exact takeWhile_reverse_suffix _ _

/-- The extension computed by `extname` is empty or a suffix of its input. -/
theorem extname_eq_empty_or_endsWith (s : String) :
    extname s = "" ∨ strEndsWith s (extname s) = true := by
  unfold extname
  split_ifs with h1 h2
  · exact Or.inl rfl
  · right
    rw [strEndsWith, List.isSuffixOf_iff_suffix]
    have hd_ne : (basenameChars s.toList).reverse.dropWhile (fun c => decide (c ≠ '.')) ≠ [] := by
      intro hnil
      have hsplit := List.takeWhile_append_dropWhile (fun c => decide (c ≠ '.'))
        (basenameChars s.toList).reverse
      rw [hnil, List.append_nil] at hsplit
      have hlen : ((basenameChars s.toList).reverse.takeWhile
          (fun c => decide (c ≠ '.'))).length = (basenameChars s.toList).length := by
        rw [hsplit, List.length_reverse]
      omega
    have hhead : ((basenameChars s.toList).reverse.dropWhile
        (fun c => decide (c ≠ '.'))).head hd_ne = '.' := by
      have hh := List.head_dropWhile_not (fun c => decide (c ≠ '.'))
        (basenameChars s.toList).reverse hd_ne
      simpa using hh
    have hd_eq : (basenameChars s.toList).reverse.dropWhile (fun c => decide (c ≠ '.')) =
        '.' :: ((basenameChars s.toList).reverse.dropWhile (fun c => decide (c ≠ '.'))).tail := by
      conv_lhs => rw [← List.head_cons_tail _ hd_ne]
      rw [hhead]
    have hsplit := List.takeWhile_append_dropWhile (fun c => decide (c ≠ '.'))
      (basenameChars s.toList).reverse
    have hb : basenameChars s.toList =
        (((basenameChars s.toList).reverse.dropWhile (fun c => decide (c ≠ '.'))).tail).reverse
          ++ ('.' :: ((basenameChars s.toList).reverse.takeWhile
              (fun c => decide (c ≠ '.'))).reverse) := by
      conv_lhs => rw [← List.reverse_reverse (basenameChars s.toList), ← hsplit]
      rw [List.reverse_append]
      conv_lhs => rw [hd_eq]
      simp
    have hsuffix1 : ('.' :: ((basenameChars s.toList).reverse.takeWhile
        (fun c => decide (c ≠ '.'))).reverse) <:+ basenameChars s.toList :=
      ⟨_, hb.symm⟩
    have := hsuffix1.trans (basenameChars_suffix s.toList)
    simpa using this
  · exact Or.inl rfl

/-- Case analysis of `ensureEntryFromUrl`: either the canonical url is
registered and the graph is unchanged, or a fresh node is created and all
three indices gain it. -/
theorem ensureEntry_cases (g : ModuleGraph) (rawUrl : String) (ssr : Bool) :
    (alGet g.urlToModuleMap (g.resolveUrl rawUrl ssr).1 =
        some (g.ensureEntryFromUrl rawUrl ssr).2 ∧
      (g.ensureEntryFromUrl rawUrl ssr).1 = g) ∨
    (alGet g.urlToModuleMap (g.resolveUrl rawUrl ssr).1 = none ∧
      (g.ensureEntryFromUrl rawUrl ssr).2 = g.mods.length ∧
      (g.ensureEntryFromUrl rawUrl ssr).1.mods = g.mods ++
        [{ ModuleNode.create (g.resolveUrl rawUrl ssr).1 with
            meta := (g.resolveUrl rawUrl ssr).2.2,
            id := some (g.resolveUrl rawUrl ssr).2.1,
            file := some (cleanUrl (g.resolveUrl rawUrl ssr).2.1) }] ∧
      (g.ensureEntryFromUrl rawUrl ssr).1.urlToModuleMap =
        alSet g.urlToModuleMap (g.resolveUrl rawUrl ssr).1 g.mods.length ∧
      (g.ensureEntryFromUrl rawUrl ssr).1.idToModuleMap =
        alSet g.idToModuleMap (g.resolveUrl rawUrl ssr).2.1 g.mods.length ∧
      (g.ensureEntryFromUrl rawUrl ssr).1.fileToModulesMap =
        alSet g.fileToModulesMap (cleanUrl (g.resolveUrl rawUrl ssr).2.1)
          (listAdd ((alGet g.fileToModulesMap
              (cleanUrl (g.resolveUrl rawUrl ssr).2.1)).getD []) g.mods.length) ∧
      (g.ensureEntryFromUrl rawUrl ssr).1.resolveId = g.resolveId ∧
      (g.ensureEntryFromUrl rawUrl ssr).1.safeModulesPath = g.safeModulesPath) := by
  rcases h : alGet g.urlToModuleMap (g.resolveUrl rawUrl ssr).1 with _ | n
  · right
    refine ⟨rfl, ?_, ?_, ?_, ?_, ?_, ?_, ?_⟩ <;>
      simp [ModuleGraph.ensureEntryFromUrl, h]
  · left
    constructor <;> simp [ModuleGraph.ensureEntryFromUrl, h]

/-- The node returned by `ensureEntryFromUrl` is registered under the
canonical url afterwards. -/
theorem ensureEntry_urlMap_self (g : ModuleGraph) (rawUrl : String) (ssr : Bool) :
    alGet (g.ensureEntryFromUrl rawUrl ssr).1.urlToModuleMap (g.resolveUrl rawUrl ssr).1 =
      some (g.ensureEntryFromUrl rawUrl ssr).2 := by
  rcases ensureEntry_cases g rawUrl ssr with ⟨h1, h2⟩ | ⟨_, h2, _, h4, _⟩
  · rw [h2]
    exact h1
  · rw [h4, alGet_alSet, if_pos rfl, h2]

/-- `resolveUrl`, componentwise. -/
theorem resolveUrl_eq (g : ModuleGraph) (url : String) (ssr : Bool) :
    g.resolveUrl url ssr = (canonUrlOf g url ssr, resolvedIdOf g url ssr, metaOf g url ssr) :=
  rfl

/-- C8: when the injected resolver returns the absent value, resolveUrl does
not fail: it returns the cleaned URL (timestamp query and import marker
stripped) as both the canonical url and the resolved id, with no metadata,
and ensureEntryFromUrl still produces a node registered under that url. -/
theorem C8_resolution_miss (g : ModuleGraph) (url : String) (ssr : Bool)
    (hmiss : g.resolveId (removeImportQuery (removeTimestampQuery url)) ssr = none) :
    g.resolveUrl url ssr =
      (removeImportQuery (removeTimestampQuery url),
        removeImportQuery (removeTimestampQuery url), none) ∧
    alGet (g.ensureEntryFromUrl url ssr).1.urlToModuleMap
        (removeImportQuery (removeTimestampQuery url)) =
      some (g.ensureEntryFromUrl url ssr).2 := by
  have hmiss' : g.resolveId (cleanedOf url) ssr = none := hmiss
  have hrid : resolvedIdOf g url ssr = cleanedOf url := by
    unfold resolvedIdOf
    rw [hmiss']
  have hcanon : canonUrlOf g url ssr = cleanedOf url := by
    unfold canonUrlOf
    rw [hrid]
    rcases extname_eq_empty_or_endsWith (cleanUrl (cleanedOf url)) with he | he
    · rw [if_neg]
      rintro ⟨hne, _⟩
      exact hne he
    · rw [if_neg]
      rintro ⟨_, hfalse⟩
      have he' : strEndsWith (parseUrl (cleanedOf url)).pathname
          (extname (cleanUrl (cleanedOf url))) = true := he
      rw [he'] at hfalse
      cases hfalse
  have hmeta : metaOf g url ssr = none := by
    unfold metaOf
    rw [hmiss']
    rfl
  have h1 : g.resolveUrl url ssr =
      (removeImportQuery (removeTimestampQuery url),
        removeImportQuery (removeTimestampQuery url), none) := by
    rw [resolveUrl_eq, hcanon, hrid, hmeta]
    rfl
  refine ⟨h1, ?_⟩
  have h2 := ensureEntry_urlMap_self g url ssr
  rw [h1] at h2
  exact h2

/-- Witness for C8 on an empty graph with an always-missing resolver. -/
theorem C8_resolution_miss_witness :
    ({ resolveId := wResolveNone } : ModuleGraph).resolveUrl "/nope" false =
      (removeImportQuery (removeTimestampQuery "/nope"),
        removeImportQuery (removeTimestampQuery "/nope"), none) ∧
    alGet (({ resolveId := wResolveNone } : ModuleGraph).ensureEntryFromUrl
        "/nope" false).1.urlToModuleMap
        (removeImportQuery (removeTimestampQuery "/nope")) =
      some (({ resolveId := wResolveNone } : ModuleGraph).ensureEntryFromUrl "/nope" false).2 :=
  C8_resolution_miss { resolveId := wResolveNone } "/nope" false (by decide)

/-! ## Idempotence of entry creation -/

theorem ensureEntry_resolveId (g : ModuleGraph) (u : String) (ssr : Bool) :
    (g.ensureEntryFromUrl u ssr).1.resolveId = g.resolveId := by
  rcases ensureEntry_cases g u ssr with ⟨_, h2⟩ | ⟨_, _, _, _, _, _, h7, _⟩
  · rw [h2]
  · exact h7

theorem resolveUrl_congr {g g' : ModuleGraph} (h : g'.resolveId = g.resolveId)
    (u : String) (ssr : Bool) : g'.resolveUrl u ssr = g.resolveUrl u ssr := by
  rw [resolveUrl_eq, resolveUrl_eq]
  unfold canonUrlOf resolvedIdOf metaOf
  rw [h]

/-- Running `ensureEntryFromUrl` a second time with the same raw url returns
the identical node and changes nothing. -/
theorem ensureEntry_idem (g : ModuleGraph) (u : String) (ssr : Bool) :
    ((g.ensureEntryFromUrl u ssr).1).ensureEntryFromUrl u ssr = g.ensureEntryFromUrl u ssr := by
  rcases hp : g.ensureEntryFromUrl u ssr with ⟨g₁, n⟩
  have hres : g₁.resolveId = g.resolveId := by
    have h := ensureEntry_resolveId g u ssr
    rw [hp] at h
    exact h
  have hurl : g₁.resolveUrl u ssr = g.resolveUrl u ssr := resolveUrl_congr hres u ssr
  have hself := ensureEntry_urlMap_self g u ssr
  rw [hp] at hself
  show g₁.ensureEntryFromUrl u ssr = (g₁, n)
  simp only [ModuleGraph.ensureEntryFromUrl, hurl, hself]

theorem getMod_of_mods_append {h g : ModuleGraph} {x : ModuleNode}
    (hm : h.mods = g.mods ++ [x]) :
    h.getMod g.mods.length = x ∧ ∀ j, j ≠ g.mods.length → h.getMod j = g.getMod j := by
  constructor
  · rw [getMod_eq, hm, List.getElem?_concat_length]
    rfl
  · intro j hj
    rw [getMod_eq, getMod_eq, hm, List.getElem?_append]
    rcases Nat.lt_or_ge j g.mods.length with hlt | hge
    · rw [if_pos hlt]
    · rw [if_neg (Nat.not_lt_of_ge hge)]
      have h1 : g.mods[j]? = none := List.getElem?_eq_none hge
      have h2 : j - g.mods.length ≥ 1 := by omega
      have h3 : ([x] : List ModuleNode)[j - g.mods.length]? = none :=
        List.getElem?_eq_none (by simpa using h2)
      rw [h1, h3]

theorem getElem?_concat_ne {α : Type} (l : List α) (x : α) {j : Nat}
    (hj : j ≠ l.length) : (l ++ [x])[j]? = l[j]? := by
  rw [List.getElem?_append]
  rcases Nat.lt_or_ge j l.length with hlt | hge
  · rw [if_pos hlt]
  · rw [if_neg (Nat.not_lt_of_ge hge)]
    have h1 : l[j]? = none := List.getElem?_eq_none hge
    have h3 : ([x] : List α)[j - l.length]? = none := by
      apply List.getElem?_eq_none
      simp only [List.length_singleton]
      omega
    rw [h1, h3]

/-- `createFileOnlyEntry` returns an existing node when the file set lists
it (after misses), without touching the graph. -/
theorem createFileOnly_returns (h : ModuleGraph) (file : String) (s : List Nat) (n : Nat)
    (ha : alGet h.fileToModulesMap (normalizePath file) = some (s ++ [n]))
    (hb : (h.getMod n).url = FS_PREFIX ++ normalizePath file ∨
      (h.getMod n).id = some (normalizePath file))
    (hc : ∀ j ∈ s, ¬ ((h.getMod j).url = FS_PREFIX ++ normalizePath file ∨
      (h.getMod j).id = some (normalizePath file))) :
    h.createFileOnlyEntry file = (h, n) := by
  have h1 : s.find? (fun m => (h.getMod m).url = (FS_PREFIX ++ normalizePath file) ||
      (h.getMod m).id = some (normalizePath file)) = none := by
    rw [List.find?_eq_none]
    intro j hj
    simpa using hc j hj
  have hfind : (s ++ [n]).find? (fun m => (h.getMod m).url = (FS_PREFIX ++ normalizePath file) ||
      (h.getMod m).id = some (normalizePath file)) = some n := by
    rw [List.find?_append, h1]
    have hn : (decide ((h.getMod n).url = FS_PREFIX ++ normalizePath file) ||
        decide ((h.getMod n).id = some (normalizePath file))) = true := by
      rcases hb with hb | hb <;> simp [hb]
    simp [List.find?_cons, hn]
  simp [ModuleGraph.createFileOnlyEntry, ha, hfind]

/-- Running `createFileOnlyEntry` a second time with the same file returns
the identical node and changes nothing (on a graph whose file index holds
only live nodes). -/
theorem createFileOnly_idem (g : ModuleGraph) (file : String) (hmwf : MapsWF g) :
    ((g.createFileOnlyEntry file).1).createFileOnlyEntry file = g.createFileOnlyEntry file := by
  rcases hm : alGet g.fileToModulesMap (normalizePath file) with _ | s
  · -- the file had no entry: a fresh node was created and indexed
    have hp' : g.createFileOnlyEntry file =
        ({ g with
            mods := g.mods ++ [{ ModuleNode.create (FS_PREFIX ++ normalizePath file) with
              file := some (normalizePath file) }],
            fileToModulesMap := alSet (alSet g.fileToModulesMap (normalizePath file) [])
              (normalizePath file) [g.mods.length] }, g.mods.length) := by
      simp [ModuleGraph.createFileOnlyEntry, hm, listAdd]
    rw [hp']
    refine createFileOnly_returns _ file [] g.mods.length ?_ ?_ ?_
    · rw [alGet_alSet, if_pos rfl]
      rfl
    · left
      rw [getMod_eq]
      simp [List.getElem?_concat_length, ModuleNode.create]
    · intro j hj
      exact absurd hj (List.not_mem_nil j)
  · rcases hf : s.find? (fun m => (g.getMod m).url = (FS_PREFIX ++ normalizePath file) ||
        (g.getMod m).id = some (normalizePath file)) with _ | m
    · -- entry present, no matching node: a fresh node joined the file set
      have hbound : ∀ j ∈ s, j < g.mods.length :=
        fun j hj => hmwf.2.2 (normalizePath file, s) (alGet_mem hm) j hj
      have hnmem : g.mods.length ∉ s := fun hc => Nat.lt_irrefl _ (hbound _ hc)
      have hadd : listAdd s g.mods.length = s ++ [g.mods.length] := by
        simp [listAdd, hnmem]
      have hp' : g.createFileOnlyEntry file =
          ({ g with
              mods := g.mods ++ [{ ModuleNode.create (FS_PREFIX ++ normalizePath file) with
                file := some (normalizePath file) }],
              fileToModulesMap := alSet g.fileToModulesMap
                (normalizePath file) (s ++ [g.mods.length]) }, g.mods.length) := by
        simp [ModuleGraph.createFileOnlyEntry, hm, hf, hadd]
      rw [hp']
      refine createFileOnly_returns _ file s g.mods.length ?_ ?_ ?_
      · rw [alGet_alSet, if_pos rfl]
      · left
        rw [getMod_eq]
        simp [List.getElem?_concat_length, ModuleNode.create]
      · intro j hj
        have hne : j ≠ g.mods.length := Nat.ne_of_lt (hbound j hj)
        have hgj : ({ g with
            mods := g.mods ++ [{ ModuleNode.create (FS_PREFIX ++ normalizePath file) with
              file := some (normalizePath file) }],
            fileToModulesMap := alSet g.fileToModulesMap
              (normalizePath file) (s ++ [g.mods.length]) } : ModuleGraph).getMod j =
            g.getMod j := by
          rw [getMod_eq, getMod_eq]
          simp only [getElem?_concat_ne _ _ hne]
        rw [hgj]
        have := List.find?_eq_none.mp hf j hj
        simpa using this
    · -- a matching node already existed: nothing changed, both calls agree
      have hp' : g.createFileOnlyEntry file = (g, m) := by
        simp [ModuleGraph.createFileOnlyEntry, hm, hf]
      rw [hp']
      exact hp'

/-- C9: with the (pure, hence deterministic) injected resolver, calling
ensureEntryFromUrl twice with the same raw URL returns the identical node
both times and the second call changes nothing (all three indices included);
likewise createFileOnlyEntry called twice with the same file returns the
same node and changes nothing. -/
theorem C9_idempotent_entry (g : ModuleGraph) (u : String) (ssr : Bool) (file : String)
    (hmwf : MapsWF g) :
    ((g.ensureEntryFromUrl u ssr).1).ensureEntryFromUrl u ssr = g.ensureEntryFromUrl u ssr ∧
    ((g.createFileOnlyEntry file).1).createFileOnlyEntry file = g.createFileOnlyEntry file :=
  ⟨ensureEntry_idem g u ssr, createFileOnly_idem g file hmwf⟩

/-- Witness for C9 on a concrete three-node graph. -/
theorem C9_idempotent_entry_witness :
    ((wOrphanGraph.ensureEntryFromUrl "/q" false).1).ensureEntryFromUrl "/q" false =
      wOrphanGraph.ensureEntryFromUrl "/q" false ∧
    ((wOrphanGraph.createFileOnlyEntry "/afile").1).createFileOnlyEntry "/afile" =
      wOrphanGraph.createFileOnlyEntry "/afile" :=
  C9_idempotent_entry wOrphanGraph "/q" false "/afile" (by decide)

/-- C6: with zero client connections, sending an error payload stores it in
the single-slot buffer (overwriting any previous content, as no assumption
is made on the old slot) and delivers nothing; the next client to connect
receives the connected message immediately followed by the buffered error,
after which the buffer is cleared; a second connection receives only the
connected message. -/
theorem C6_buffered_error (s : WSServerState) (e : String) (c1 c2 : Nat)
    (hclients : s.clients = [])
    (hc1 : alGet s.received c1 = none)
    (hc2 : alGet s.received c2 = none)
    (hne : c1 ≠ c2) :
    (wsSend s (HMRPayload.error e)).bufferedError = some (HMRPayload.error e) ∧
    (wsSend s (HMRPayload.error e)).received = s.received ∧
    alGet (wsConnect (wsSend s (HMRPayload.error e)) c1).received c1 =
      some [HMRPayload.connected, HMRPayload.error e] ∧
    (wsConnect (wsSend s (HMRPayload.error e)) c1).bufferedError = none ∧
    alGet (wsConnect (wsConnect (wsSend s (HMRPayload.error e)) c1) c2).received c2 =
      some [HMRPayload.connected] := by
  have hsend : wsSend s (HMRPayload.error e) =
      { s with bufferedError := some (HMRPayload.error e) } := by
    simp [wsSend, hclients, HMRPayload.isError]
  have hs1 : (wsSend s (HMRPayload.error e)).received = s.received := by
    rw [hsend]
  have hconn1 : wsConnect (wsSend s (HMRPayload.error e)) c1 =
      { clients := listAdd s.clients c1,
        bufferedError := none,
        received := alSet (alSet s.received c1 [HMRPayload.connected]) c1
          [HMRPayload.connected, HMRPayload.error e] } := by
    rw [hsend]
    simp [wsConnect, wsDeliver, hc1, alGet_alSet]
  refine ⟨by rw [hsend], hs1, ?_, by rw [hconn1], ?_⟩
  · rw [hconn1]
    simp [alGet_alSet]
  · rw [hconn1]
    simp only [wsConnect, wsDeliver]
    simp [alGet_alSet, hne, hc2]

/-- Witness for C6 on a fresh channel state. -/
theorem C6_buffered_error_witness :
    (wsSend {} (HMRPayload.error "boom")).bufferedError = some (HMRPayload.error "boom") ∧
    (wsSend {} (HMRPayload.error "boom")).received = WSServerState.received {} ∧
    alGet (wsConnect (wsSend {} (HMRPayload.error "boom")) 7).received 7 =
      some [HMRPayload.connected, HMRPayload.error "boom"] ∧
    (wsConnect (wsSend {} (HMRPayload.error "boom")) 7).bufferedError = none ∧
    alGet (wsConnect (wsConnect (wsSend {} (HMRPayload.error "boom")) 7) 8).received 8 =
      some [HMRPayload.connected] :=
  C6_buffered_error {} "boom" 7 8 (by decide) (by decide) (by decide) (by decide)

/-! ## Stage lemmas for updateModuleInfo -/

/-- `updateModuleInfo` as the composition of its stages. -/
theorem updateModuleInfo_eq (g : ModuleGraph) (mod : Nat) (imps acc : List (String ⊕ Nat))
    (sa ssr : Bool) :
    g.updateModuleInfo mod imps acc sa ssr =
      (acceptedLoop ssr mod
        ((pruneImportsLoop mod
            (updateImportsLoop ssr mod
              ((g.modifyMod mod (fun m => { m with isSelfAccepting := sa })).modifyMod mod
                (fun m => { m with importedModules := [] }))
              imps)
            none
            (((g.modifyMod mod (fun m => { m with isSelfAccepting := sa })).getMod
              mod).importedModules)).1.modifyMod
          mod (fun m => { m with acceptedHmrDeps := [] }))
        acc,
       (pruneImportsLoop mod
          (updateImportsLoop ssr mod
            ((g.modifyMod mod (fun m => { m with isSelfAccepting := sa })).modifyMod mod
              (fun m => { m with importedModules := [] }))
            imps)
          none
          (((g.modifyMod mod (fun m => { m with isSelfAccepting := sa })).getMod
            mod).importedModules)).2) :=
  rfl

theorem updateImportsLoop_nil (ssr : Bool) (mod : Nat) (g : ModuleGraph) :
    updateImportsLoop ssr mod g [] = g := rfl

theorem updateImportsLoop_cons (ssr : Bool) (mod : Nat) (g : ModuleGraph)
    (x : String ⊕ Nat) (rest : List (String ⊕ Nat)) :
    updateImportsLoop ssr mod g (x :: rest) =
      updateImportsLoop ssr mod
        (((g.entryOf x ssr).1.modifyMod (g.entryOf x ssr).2
            (fun m => { m with importers := listAdd m.importers mod })).modifyMod mod
          (fun m => { m with importedModules := listAdd m.importedModules (g.entryOf x ssr).2 }))
        rest :=
  rfl

theorem pruneImportsLoop_nil (mod : Nat) (g : ModuleGraph) (nl : Option (List Nat)) :
    pruneImportsLoop mod g nl [] = (g, nl) := rfl

theorem pruneImportsLoop_skip {mod : Nat} {g : ModuleGraph} {nl : Option (List Nat)}
    {dep : Nat} (rest : List Nat) (h : dep ∈ (g.getMod mod).importedModules) :
    pruneImportsLoop mod g nl (dep :: rest) = pruneImportsLoop mod g nl rest := by
  simp only [pruneImportsLoop, if_pos h]

theorem pruneImportsLoop_remove {mod : Nat} {g : ModuleGraph} {nl : Option (List Nat)}
    {dep : Nat} (rest : List Nat) (h : dep ∉ (g.getMod mod).importedModules) :
    pruneImportsLoop mod g nl (dep :: rest) =
      pruneImportsLoop mod
        (g.modifyMod dep (fun m => { m with importers := m.importers.erase mod }))
        (if ((g.modifyMod dep (fun m =>
            { m with importers := m.importers.erase mod })).getMod dep).importers.isEmpty then
          some (listAdd (nl.getD []) dep)
        else nl)
        rest := by
  simp only [pruneImportsLoop, if_neg h]

theorem acceptedLoop_nil (ssr : Bool) (mod : Nat) (g : ModuleGraph) :
    acceptedLoop ssr mod g [] = g := rfl

theorem acceptedLoop_cons (ssr : Bool) (mod : Nat) (g : ModuleGraph)
    (x : String ⊕ Nat) (rest : List (String ⊕ Nat)) :
    acceptedLoop ssr mod g (x :: rest) =
      acceptedLoop ssr mod
        ((g.entryOf x ssr).1.modifyMod mod
          (fun m => { m with acceptedHmrDeps := listAdd m.acceptedHmrDeps (g.entryOf x ssr).2 }))
        rest :=
  rfl

/-- A projection that agrees on the default node is unchanged on every node
when the node store is extended by one node with the default value of that
projection. -/
theorem getMod_proj_of_append {β : Type} (π : ModuleNode → β) {h g : ModuleGraph}
    {x : ModuleNode} (hm : h.mods = g.mods ++ [x])
    (hx : π x = π (ModuleNode.create "")) (j : Nat) :
    π (h.getMod j) = π (g.getMod j) := by
  by_cases hj : j = g.mods.length
  · subst hj
    rw [(getMod_of_mods_append hm).1, getMod_of_le (Nat.le_refl _), hx]
  · rw [(getMod_of_mods_append hm).2 j hj]

/-- `ensureEntryFromUrl` changes no node's importers. -/
theorem ensureEntry_importers (g : ModuleGraph) (u : String) (ssr : Bool) (j : Nat) :
    (((g.ensureEntryFromUrl u ssr).1).getMod j).importers = (g.getMod j).importers := by
  rcases ensureEntry_cases g u ssr with ⟨_, h2⟩ | ⟨_, _, h3, _⟩
  · rw [h2]
  · exact getMod_proj_of_append (fun x => x.importers) h3 rfl j

/-- `ensureEntryFromUrl` changes no node's importedModules. -/
theorem ensureEntry_importedModules (g : ModuleGraph) (u : String) (ssr : Bool) (j : Nat) :
    (((g.ensureEntryFromUrl u ssr).1).getMod j).importedModules =
      (g.getMod j).importedModules := by
  rcases ensureEntry_cases g u ssr with ⟨_, h2⟩ | ⟨_, _, h3, _⟩
  · rw [h2]
  · exact getMod_proj_of_append (fun x => x.importedModules) h3 rfl j

theorem entryOf_importers (g : ModuleGraph) (x : String ⊕ Nat) (ssr : Bool) (j : Nat) :
    (((g.entryOf x ssr).1).getMod j).importers = (g.getMod j).importers := by
  cases x with
  | inl u => exact ensureEntry_importers g u ssr j
  | inr d => rfl

theorem entryOf_importedModules (g : ModuleGraph) (x : String ⊕ Nat) (ssr : Bool) (j : Nat) :
    (((g.entryOf x ssr).1).getMod j).importedModules = (g.getMod j).importedModules := by
  cases x with
  | inl u => exact ensureEntry_importedModules g u ssr j
  | inr d => rfl

/-- The accepted-deps loop changes no node's importers. -/
theorem acceptedLoop_importers (ssr : Bool) (mod : Nat) :
    ∀ (l : List (String ⊕ Nat)) (g : ModuleGraph) (j : Nat),
      ((acceptedLoop ssr mod g l).getMod j).importers = (g.getMod j).importers := by
  intro l
  induction l with
  | nil => intro g j; rfl
  | cons x rest ih =>
    intro g j
    rw [acceptedLoop_cons, ih]
    rw [getMod_modifyMod_proj (fun m => m.importers) (g.entryOf x ssr).1 mod
      (fun m => { m with acceptedHmrDeps := listAdd m.acceptedHmrDeps (g.entryOf x ssr).2 })
      (fun _ => rfl) j]
    exact entryOf_importers g x ssr j

/-- C3: if X currently imports exactly Y and Z, updating X's imports to just
Y removes X from Z's importers (the edge to Z is dropped), and the call
returns the singleton orphan set containing Z exactly when Z has no
remaining importers after the removal; otherwise it returns the absent
value, never an empty set. -/
theorem C3_orphan_detection (g : ModuleGraph) (X Y Z : Nat)
    (accepted : List (String ⊕ Nat)) (sa ssr : Bool)
    (hprev : (g.getMod X).importedModules = [Y, Z])
    (hXY : X ≠ Y) (hXZ : X ≠ Z) (hYZ : Y ≠ Z) :
    ((g.updateModuleInfo X [Sum.inr Y] accepted sa ssr).1.getMod Z).importers =
      (g.getMod Z).importers.erase X ∧
    (g.updateModuleInfo X [Sum.inr Y] accepted sa ssr).2 =
      (if (g.getMod Z).importers.erase X = [] then some [Z] else none) := by
  have hX : X < g.mods.length := by
    by_contra hc
    rw [getMod_of_le (Nat.le_of_not_lt hc)] at hprev
    simp [ModuleNode.create] at hprev
  have hprevA : ((g.modifyMod X (fun m => { m with isSelfAccepting := sa })).getMod
      X).importedModules = [Y, Z] := by
    rw [getMod_modifyMod_proj (fun x => x.importedModules) g X
      (fun m => { m with isSelfAccepting := sa }) (fun _ => rfl) X]
    exact hprev
  rw [updateModuleInfo_eq, hprevA, updateImportsLoop_cons, updateImportsLoop_nil]
  simp only [ModuleGraph.entryOf]
  -- the graph after the import loop
  have hx2 : (((((g.modifyMod X (fun m => { m with isSelfAccepting := sa })).modifyMod X
      (fun m => { m with importedModules := [] })).modifyMod Y
      (fun m => { m with importers := listAdd m.importers X })).modifyMod X
      (fun m => { m with importedModules := listAdd m.importedModules Y })).getMod X
      |>.importedModules) = [Y] := by
    rw [getMod_modifyMod_self]
    · show listAdd ((((g.modifyMod X (fun m => { m with isSelfAccepting := sa })).modifyMod X
        (fun m => { m with importedModules := [] })).modifyMod Y
        (fun m => { m with importers := listAdd m.importers X })).getMod X).importedModules Y
        = [Y]
      rw [getMod_modifyMod_proj (fun x => x.importedModules)
        ((g.modifyMod X (fun m => { m with isSelfAccepting := sa })).modifyMod X
          (fun m => { m with importedModules := [] })) Y
        (fun m => { m with importers := listAdd m.importers X }) (fun _ => rfl) X]
      rw [getMod_modifyMod_self]
      · show listAdd ([] : List Nat) Y = [Y]
        simp [listAdd]
      · rw [length_modifyMod]
        exact hX
    · rw [length_modifyMod, length_modifyMod, length_modifyMod]
      exact hX
  rw [pruneImportsLoop_skip [Z] (by rw [hx2]; exact List.mem_singleton_self Y)]
  rw [pruneImportsLoop_remove [] (by
    rw [hx2]
    intro hc
    exact hYZ (List.mem_singleton.mp hc).symm)]
  rw [pruneImportsLoop_nil]
  -- Z's importers after the removal step
  have hg2Z : (((((g.modifyMod X (fun m => { m with isSelfAccepting := sa })).modifyMod X
      (fun m => { m with importedModules := [] })).modifyMod Y
      (fun m => { m with importers := listAdd m.importers X })).modifyMod X
      (fun m => { m with importedModules := listAdd m.importedModules Y })).getMod Z
      |>.importers) = (g.getMod Z).importers := by
    rw [getMod_modifyMod_proj (fun x => x.importers)
      (((g.modifyMod X (fun m => { m with isSelfAccepting := sa })).modifyMod X
        (fun m => { m with importedModules := [] })).modifyMod Y
        (fun m => { m with importers := listAdd m.importers X })) X
      (fun m => { m with importedModules := listAdd m.importedModules Y }) (fun _ => rfl) Z]
    rw [getMod_modifyMod_of_ne _ hYZ]
    rw [getMod_modifyMod_proj (fun x => x.importers)
      (g.modifyMod X (fun m => { m with isSelfAccepting := sa })) X
      (fun m => { m with importedModules := [] }) (fun _ => rfl) Z]
    rw [getMod_modifyMod_proj (fun x => x.importers) g X
      (fun m => { m with isSelfAccepting := sa }) (fun _ => rfl) Z]
  have hz3 : ((((((g.modifyMod X (fun m => { m with isSelfAccepting := sa })).modifyMod X
      (fun m => { m with importedModules := [] })).modifyMod Y
      (fun m => { m with importers := listAdd m.importers X })).modifyMod X
      (fun m => { m with importedModules := listAdd m.importedModules Y })).modifyMod Z
      (fun m => { m with importers := m.importers.erase X })).getMod Z).importers =
      (g.getMod Z).importers.erase X := by
    by_cases hZlen : Z < ((((g.modifyMod X (fun m => { m with isSelfAccepting := sa })).modifyMod
        X (fun m => { m with importedModules := [] })).modifyMod Y
        (fun m => { m with importers := listAdd m.importers X })).modifyMod X
        (fun m => { m with importedModules := listAdd m.importedModules Y })).mods.length
    · rw [getMod_modifyMod_self _ hZlen]
      exact congrArg (fun l => List.erase l X) hg2Z
    · rw [ModuleGraph.modifyMod, setMod_of_le _ (Nat.le_of_not_lt hZlen)]
      rw [length_modifyMod, length_modifyMod, length_modifyMod, length_modifyMod] at hZlen
      have hZg : g.mods.length ≤ Z := Nat.le_of_not_lt hZlen
      rw [hg2Z, getMod_of_le hZg]
      rfl
  constructor
  · rw [acceptedLoop_importers]
    rw [getMod_modifyMod_proj (fun x => x.importers) _ X
      (fun m => { m with acceptedHmrDeps := [] }) (fun _ => rfl) Z]
    exact hz3
  · rw [hz3]
    rcases (g.getMod Z).importers.erase X with _ | ⟨h, t⟩
    · simp [listAdd]
    · simp

/-- Witness for C3: in the concrete graph, node 0 imports 1 and 2, and 2
loses its only importer, so the call returns the singleton orphan set. -/
theorem C3_orphan_detection_witness :
    ((wOrphanGraph.updateModuleInfo 0 [Sum.inr 1] [] false false).1.getMod 2).importers =
      (wOrphanGraph.getMod 2).importers.erase 0 ∧
    (wOrphanGraph.updateModuleInfo 0 [Sum.inr 1] [] false false).2 =
      (if (wOrphanGraph.getMod 2).importers.erase 0 = [] then some [2] else none) :=
  C3_orphan_detection wOrphanGraph 0 1 2 [] false false (by decide) (by decide) (by decide)
    (by decide)

/-! ## Self-import lemmas -/

/-- A node with a nonempty importers list is a live node. -/
theorem lt_of_mem_importers {g : ModuleGraph} {j i : Nat}
    (h : i ∈ (g.getMod j).importers) : j < g.mods.length := by
  by_contra hc
  rw [getMod_of_le (Nat.le_of_not_lt hc)] at h
  simp [ModuleNode.create] at h

/-- A node with a nonempty importedModules list is a live node. -/
theorem lt_of_mem_importedModules {g : ModuleGraph} {j i : Nat}
    (h : i ∈ (g.getMod j).importedModules) : j < g.mods.length := by
  by_contra hc
  rw [getMod_of_le (Nat.le_of_not_lt hc)] at h
  simp [ModuleNode.create] at h

/-- `ensureEntryFromUrl` preserves existing url-index entries. -/
theorem ensureEntry_urlMap_mono {g : ModuleGraph} {u : String} {ssr : Bool}
    {k : String} {v : Nat} (h : alGet g.urlToModuleMap k = some v) :
    alGet (g.ensureEntryFromUrl u ssr).1.urlToModuleMap k = some v := by
  rcases ensureEntry_cases g u ssr with ⟨_, h2⟩ | ⟨h1, _, _, h4, _⟩
  · rw [h2]
    exact h
  · rw [h4, alGet_alSet]
    rw [if_neg]
    · exact h
    · intro hc
      rw [hc, h] at h1
      cases h1

theorem ensureEntry_len_mono (g : ModuleGraph) (u : String) (ssr : Bool) :
    g.mods.length ≤ (g.ensureEntryFromUrl u ssr).1.mods.length := by
  rcases ensureEntry_cases g u ssr with ⟨_, h2⟩ | ⟨_, _, h3, _⟩
  · rw [h2]
  · rw [h3]
    simp

theorem entryOf_resolveId (g : ModuleGraph) (x : String ⊕ Nat) (ssr : Bool) :
    ((g.entryOf x ssr).1).resolveId = g.resolveId := by
  cases x with
  | inl u => exact ensureEntry_resolveId g u ssr
  | inr d => rfl

theorem entryOf_urlMap_mono {g : ModuleGraph} {x : String ⊕ Nat} {ssr : Bool}
    {k : String} {v : Nat} (h : alGet g.urlToModuleMap k = some v) :
    alGet ((g.entryOf x ssr).1).urlToModuleMap k = some v := by
  cases x with
  | inl u => exact ensureEntry_urlMap_mono h
  | inr d => exact h

theorem entryOf_len_mono (g : ModuleGraph) (x : String ⊕ Nat) (ssr : Bool) :
    g.mods.length ≤ ((g.entryOf x ssr).1).mods.length := by
  cases x with
  | inl u => exact ensureEntry_len_mono g u ssr
  | inr d => exact Nat.le_refl _

/-- An entry that denotes `mod` through the url index resolves to `mod`
without changing the graph. -/
theorem entryOf_resolvesTo {mod : Nat} {ssr : Bool} {g : ModuleGraph} {x : String ⊕ Nat}
    (h : ResolvesTo mod ssr g x) : g.entryOf x ssr = (g, mod) := by
  rcases h with rfl | ⟨u, rfl, hu⟩
  · rfl
  · show g.ensureEntryFromUrl u ssr = (g, mod)
    rcases hp : g.ensureEntryFromUrl u ssr with ⟨g₁, n⟩
    rcases ensureEntry_cases g u ssr with ⟨h1, h2⟩ | ⟨h1, _⟩
    · rw [hp] at h1 h2
      have hg : g₁ = g := h2
      have hn : n = mod := by
        rw [h1] at hu
        exact Option.some.inj hu
      rw [hg, hn]
    · rw [hu] at h1
      cases h1

/-- `ResolvesTo` survives any graph step that keeps the resolver and the
established url-index entries. -/
theorem resolvesTo_mono {mod : Nat} {ssr : Bool} {g g' : ModuleGraph}
    (hres : g'.resolveId = g.resolveId)
    (hurl : ∀ k v, alGet g.urlToModuleMap k = some v → alGet g'.urlToModuleMap k = some v)
    {x : String ⊕ Nat} (h : ResolvesTo mod ssr g x) : ResolvesTo mod ssr g' x := by
  rcases h with rfl | ⟨u, rfl, hu⟩
  · exact Or.inl rfl
  · refine Or.inr ⟨u, rfl, ?_⟩
    rw [resolveUrl_congr hres u ssr]
    exact hurl _ _ hu

/-- The accepted-deps loop changes no node's importedModules. -/
theorem acceptedLoop_importedModules (ssr : Bool) (mod : Nat) :
    ∀ (l : List (String ⊕ Nat)) (g : ModuleGraph) (j : Nat),
      ((acceptedLoop ssr mod g l).getMod j).importedModules =
        (g.getMod j).importedModules := by
  intro l
  induction l with
  | nil => intro g j; rfl
  | cons x rest ih =>
    intro g j
    rw [acceptedLoop_cons, ih]
    rw [getMod_modifyMod_proj (fun m => m.importedModules) (g.entryOf x ssr).1 mod
      (fun m => { m with acceptedHmrDeps := listAdd m.acceptedHmrDeps (g.entryOf x ssr).2 })
      (fun _ => rfl) j]
    exact entryOf_importedModules g x ssr j

/-- The import loop keeps an established self-loop. -/
theorem importsLoop_pres (ssr : Bool) (mod : Nat) :
    ∀ (imps : List (String ⊕ Nat)) (g : ModuleGraph),
      mod ∈ (g.getMod mod).importers → mod ∈ (g.getMod mod).importedModules →
      mod ∈ ((updateImportsLoop ssr mod g imps).getMod mod).importers ∧
      mod ∈ ((updateImportsLoop ssr mod g imps).getMod mod).importedModules := by
  intro imps
  induction imps with
  | nil => intro g h1 h2; exact ⟨h1, h2⟩
  | cons x rest ih =>
    intro g h1 h2
    rw [updateImportsLoop_cons]
    have h1' : mod ∈ (((g.entryOf x ssr).1).getMod mod).importers := by
      rw [entryOf_importers]
      exact h1
    have h2' : mod ∈ (((g.entryOf x ssr).1).getMod mod).importedModules := by
      rw [entryOf_importedModules]
      exact h2
    have h1A : mod ∈ ((((g.entryOf x ssr).1).modifyMod (g.entryOf x ssr).2
        (fun m => { m with importers := listAdd m.importers mod })).getMod mod).importers := by
      by_cases hdm : (g.entryOf x ssr).2 = mod
      · rw [hdm, getMod_modifyMod_self _ (lt_of_mem_importers h1')]
        exact subset_listAdd _ _ h1'
      · rw [getMod_modifyMod_of_ne _ hdm]
        exact h1'
    have h2A : mod ∈ ((((g.entryOf x ssr).1).modifyMod (g.entryOf x ssr).2
        (fun m => { m with importers := listAdd m.importers mod })).getMod
        mod).importedModules := by
      rw [getMod_modifyMod_proj (fun m => m.importedModules) ((g.entryOf x ssr).1)
        (g.entryOf x ssr).2 (fun m => { m with importers := listAdd m.importers mod })
        (fun _ => rfl) mod]
      exact h2'
    have h1B : mod ∈ (((((g.entryOf x ssr).1).modifyMod (g.entryOf x ssr).2
        (fun m => { m with importers := listAdd m.importers mod })).modifyMod mod
        (fun m => { m with
          importedModules := listAdd m.importedModules (g.entryOf x ssr).2 })).getMod
        mod).importers := by
      rw [getMod_modifyMod_proj (fun m => m.importers) _ mod
        (fun m => { m with importedModules := listAdd m.importedModules (g.entryOf x ssr).2 })
        (fun _ => rfl) mod]
      exact h1A
    have h2B : mod ∈ (((((g.entryOf x ssr).1).modifyMod (g.entryOf x ssr).2
        (fun m => { m with importers := listAdd m.importers mod })).modifyMod mod
        (fun m => { m with
          importedModules := listAdd m.importedModules (g.entryOf x ssr).2 })).getMod
        mod).importedModules := by
      rw [getMod_modifyMod_self _ (lt_of_mem_importers h1A)]
      exact subset_listAdd _ _ h2A
    exact ih _ h1B h2B

/-- The import loop establishes the self-loop when some entry denotes the
node itself. -/
theorem importsLoop_estab (ssr : Bool) (mod : Nat) :
    ∀ (imps : List (String ⊕ Nat)) (g : ModuleGraph),
      (∃ x ∈ imps, ResolvesTo mod ssr g x) → mod < g.mods.length →
      mod ∈ ((updateImportsLoop ssr mod g imps).getMod mod).importers ∧
      mod ∈ ((updateImportsLoop ssr mod g imps).getMod mod).importedModules := by
  intro imps
  induction imps with
  | nil =>
    rintro g ⟨x, hx, _⟩ _
    exact absurd hx (List.not_mem_nil x)
  | cons y rest ih =>
    rintro g ⟨x, hx, hrt⟩ hlt
    rw [updateImportsLoop_cons]
    rcases List.mem_cons.mp hx with rfl | hx'
    · rw [entryOf_resolvesTo hrt]
      have hA : mod ∈ ((g.modifyMod mod
          (fun m => { m with importers := listAdd m.importers mod })).getMod mod).importers := by
        rw [getMod_modifyMod_self _ hlt]
        exact mem_listAdd_self _ _
      have hA2 : mod ∈ ((g.modifyMod mod
          (fun m => { m with importers := listAdd m.importers mod })).getMod
          mod).importedModules ∨ True := Or.inr trivial
      have h1B : mod ∈ (((g.modifyMod mod
          (fun m => { m with importers := listAdd m.importers mod })).modifyMod mod
          (fun m => { m with importedModules := listAdd m.importedModules mod })).getMod
          mod).importers := by
        rw [getMod_modifyMod_proj (fun m => m.importers) _ mod
          (fun m => { m with importedModules := listAdd m.importedModules mod })
          (fun _ => rfl) mod]
        exact hA
      have h2B : mod ∈ (((g.modifyMod mod
          (fun m => { m with importers := listAdd m.importers mod })).modifyMod mod
          (fun m => { m with importedModules := listAdd m.importedModules mod })).getMod
          mod).importedModules := by
        rw [getMod_modifyMod_self _ (lt_of_mem_importers hA)]
        exact mem_listAdd_self _ _
      exact importsLoop_pres ssr mod rest _ h1B h2B
    · apply ih
      · refine ⟨x, hx', ?_⟩
        apply resolvesTo_mono (g := g)
        · exact entryOf_resolveId g y ssr
        · intro k v hv
          exact entryOf_urlMap_mono hv
        · exact hrt
      · rw [length_modifyMod, length_modifyMod]
        exact Nat.lt_of_lt_of_le hlt (entryOf_len_mono g y ssr)

/-- The removal loop never touches a node that is still imported. -/
theorem pruneLoop_self_pres (mod : Nat) :
    ∀ (prev : List Nat) (g : ModuleGraph) (nl : Option (List Nat)),
      mod ∈ (g.getMod mod).importedModules →
      ((pruneImportsLoop mod g nl prev).1.getMod mod).importers =
        (g.getMod mod).importers ∧
      ((pruneImportsLoop mod g nl prev).1.getMod mod).importedModules =
        (g.getMod mod).importedModules := by
  intro prev
  induction prev with
  | nil => intro g nl _; exact ⟨rfl, rfl⟩
  | cons dep rest ih =>
    intro g nl h
    by_cases hdep : dep ∈ (g.getMod mod).importedModules
    · rw [pruneImportsLoop_skip rest hdep]
      exact ih g nl h
    · have hne : dep ≠ mod := fun hc => hdep (hc ▸ h)
      rw [pruneImportsLoop_remove rest hdep]
      have hmem : mod ∈ ((g.modifyMod dep
          (fun m => { m with importers := m.importers.erase mod })).getMod
          mod).importedModules := by
        rw [getMod_modifyMod_of_ne _ hne]
        exact h
      obtain ⟨ha, hb⟩ := ih _ _ hmem
      rw [ha, hb, getMod_modifyMod_of_ne _ hne]
      exact ⟨rfl, rfl⟩

/-- A still-imported node never joins the orphan set. -/
theorem pruneLoop_orphans (mod : Nat) :
    ∀ (prev : List Nat) (g : ModuleGraph) (nl : Option (List Nat)),
      mod ∈ (g.getMod mod).importedModules →
      (∀ s, nl = some s → mod ∉ s) →
      ∀ s, (pruneImportsLoop mod g nl prev).2 = some s → mod ∉ s := by
  intro prev
  induction prev with
  | nil => intro g nl _ hnl; exact hnl
  | cons dep rest ih =>
    intro g nl h hnl
    by_cases hdep : dep ∈ (g.getMod mod).importedModules
    · rw [pruneImportsLoop_skip rest hdep]
      exact ih g nl h hnl
    · have hne : dep ≠ mod := fun hc => hdep (hc ▸ h)
      rw [pruneImportsLoop_remove rest hdep]
      apply ih
      · rw [getMod_modifyMod_of_ne _ hne]
        exact h
      · intro s hs
        split_ifs at hs with hcond
        · have hseq : listAdd (nl.getD []) dep = s := Option.some.inj hs
          intro hmem
          rw [← hseq] at hmem
          rcases mem_listAdd.mp hmem with hm | hm
          · rcases hnl2 : nl with _ | s0
            · rw [hnl2] at hm
              simp at hm
            · rw [hnl2] at hm
              exact hnl s0 hnl2 hm
          · exact hne hm.symm
        · exact hnl s hs

/-- C10: if the imported set passed to updateModuleInfo contains the node
itself (as the node or as a URL registered for it), then after the call the
node is a member of both its own importers and its own importedModules
(edge symmetry holds for the self-loop), and it is not in the returned
orphan set. -/
theorem C10_self_import (g : ModuleGraph) (mod : Nat) (imps accepted : List (String ⊕ Nat))
    (sa ssr : Bool) (hmod : mod < g.mods.length)
    (hself : Sum.inr mod ∈ imps ∨ ∃ u, Sum.inl u ∈ imps ∧
      alGet g.urlToModuleMap (g.resolveUrl u ssr).1 = some mod) :
    mod ∈ ((g.updateModuleInfo mod imps accepted sa ssr).1.getMod mod).importers ∧
    mod ∈ ((g.updateModuleInfo mod imps accepted sa ssr).1.getMod mod).importedModules ∧
    ∀ s, (g.updateModuleInfo mod imps accepted sa ssr).2 = some s → mod ∉ s := by
  rw [updateModuleInfo_eq]
  have hex : ∃ x ∈ imps, ResolvesTo mod ssr
      ((g.modifyMod mod (fun m => { m with isSelfAccepting := sa })).modifyMod mod
        (fun m => { m with importedModules := [] })) x := by
    rcases hself with hm | ⟨u, hu, halg⟩
    · exact ⟨Sum.inr mod, hm, Or.inl rfl⟩
    · exact ⟨Sum.inl u, hu, Or.inr ⟨u, rfl, halg⟩⟩
  have hlen1 : mod < ((g.modifyMod mod (fun m => { m with isSelfAccepting := sa })).modifyMod
      mod (fun m => { m with importedModules := [] })).mods.length := by
    rw [length_modifyMod, length_modifyMod]
    exact hmod
  obtain ⟨hA1, hA2⟩ := importsLoop_estab ssr mod imps _ hex hlen1
  obtain ⟨hP1, hP2⟩ := pruneLoop_self_pres mod
    (((g.modifyMod mod (fun m => { m with isSelfAccepting := sa })).getMod
      mod).importedModules)
    (updateImportsLoop ssr mod
      ((g.modifyMod mod (fun m => { m with isSelfAccepting := sa })).modifyMod mod
        (fun m => { m with importedModules := [] })) imps)
    none hA2
  refine ⟨?_, ?_, ?_⟩
  · rw [acceptedLoop_importers, getMod_modifyMod_proj (fun m => m.importers) _ mod
      (fun m => { m with acceptedHmrDeps := [] }) (fun _ => rfl) mod, hP1]
    exact hA1
  · rw [acceptedLoop_importedModules, getMod_modifyMod_proj (fun m => m.importedModules) _ mod
      (fun m => { m with acceptedHmrDeps := [] }) (fun _ => rfl) mod, hP2]
    exact hA2
  · exact pruneLoop_orphans mod
      (((g.modifyMod mod (fun m => { m with isSelfAccepting := sa })).getMod
        mod).importedModules)
      (updateImportsLoop ssr mod
        ((g.modifyMod mod (fun m => { m with isSelfAccepting := sa })).modifyMod mod
          (fun m => { m with importedModules := [] })) imps)
      none hA2 (fun s hs => by cases hs)

/-- Witness for C10: node 0 of the concrete graph imports itself. -/
theorem C10_self_import_witness :
    0 ∈ ((wOrphanGraph.updateModuleInfo 0 [Sum.inr 0] [] false false).1.getMod 0).importers ∧
    0 ∈ ((wOrphanGraph.updateModuleInfo 0
        [Sum.inr 0] [] false false).1.getMod 0).importedModules ∧
    ∀ s, (wOrphanGraph.updateModuleInfo 0 [Sum.inr 0] [] false false).2 = some s → 0 ∉ s :=
  C10_self_import wOrphanGraph 0 [Sum.inr 0] [] false false (by decide)
    (Or.inl (List.mem_singleton_self _))

/-! ## Edge symmetry preservation -/

/-- Edge symmetry only depends on the length and the edge lists. -/
theorem edgeSym_congr {g g' : ModuleGraph}
    (hl : g'.mods.length = g.mods.length)
    (him : ∀ j, (g'.getMod j).importers = (g.getMod j).importers)
    (himp : ∀ j, (g'.getMod j).importedModules = (g.getMod j).importedModules)
    (h : EdgeSym g) : EdgeSym g' := by
  intro a ha b hb
  rw [hl] at ha hb
  rw [him, himp]
  exact h a ha b hb

/-- Appending one node with empty edge lists preserves edge symmetry on a
graph with well-formed edges. -/
theorem edgeSym_append {g h : ModuleGraph} {x : ModuleNode}
    (hm : h.mods = g.mods ++ [x]) (hx1 : x.importers = []) (hx2 : x.importedModules = [])
    (hwf : EdgesWF g) (hsym : EdgeSym g) : EdgeSym h := by
  have hlen : h.mods.length = g.mods.length + 1 := by rw [hm]; simp
  intro a ha b hb
  rw [hlen] at ha hb
  obtain ⟨hgx, hother⟩ := getMod_of_mods_append hm
  by_cases hbl : b = g.mods.length
  · subst hbl
    rw [hgx, hx2]
    by_cases hal : a = g.mods.length
    · subst hal
      rw [hgx, hx1]
    · rw [hother a hal]
      have halt : a < g.mods.length := by omega
      constructor
      · intro hc
        exact absurd hc (List.not_mem_nil a)
      · intro hc
        exact absurd ((hwf a halt).2.1 _ hc) (Nat.lt_irrefl _)
  · rw [hother b hbl]
    have hblt : b < g.mods.length := by omega
    by_cases hal : a = g.mods.length
    · subst hal
      rw [hgx, hx1]
      constructor
      · intro hc
        exact absurd ((hwf b hblt).2.2.2 _ hc) (Nat.lt_irrefl _)
      · intro hc
        exact absurd hc (List.not_mem_nil b)
    · rw [hother a hal]
      have halt : a < g.mods.length := by omega
      exact hsym a halt b hblt

/-- `ensureEntryFromUrl` preserves well-formed edges. -/
theorem ensureEntry_edgesWF {g : ModuleGraph} {u : String} {ssr : Bool}
    (hwf : EdgesWF g) : EdgesWF (g.ensureEntryFromUrl u ssr).1 := by
  rcases ensureEntry_cases g u ssr with ⟨_, h2⟩ | ⟨_, _, h3, _⟩
  · rw [h2]
    exact hwf
  · have hlen : (g.ensureEntryFromUrl u ssr).1.mods.length = g.mods.length + 1 := by
      rw [h3]
      simp
    obtain ⟨hgx, hother⟩ := getMod_of_mods_append h3
    intro j hj
    rw [hlen] at hj
    by_cases hjl : j = g.mods.length
    · subst hjl
      rw [hgx, hlen]
      refine ⟨List.nodup_nil, ?_, List.nodup_nil, ?_⟩ <;> intro i hi <;>
        exact absurd hi (List.not_mem_nil i)
    · rw [hother j hjl, hlen]
      have hjlt : j < g.mods.length := by omega
      obtain ⟨w1, w2, w3, w4⟩ := hwf j hjlt
      exact ⟨w1, fun i hi => Nat.lt_succ_of_lt (w2 i hi), w3,
        fun i hi => Nat.lt_succ_of_lt (w4 i hi)⟩

/-- `ensureEntryFromUrl` preserves well-formed indices. -/
theorem ensureEntry_mapsWF {g : ModuleGraph} {u : String} {ssr : Bool}
    (hmwf : MapsWF g) : MapsWF (g.ensureEntryFromUrl u ssr).1 := by
  rcases ensureEntry_cases g u ssr with ⟨_, h2⟩ | ⟨_, _, h3, h4, h5, h6, _⟩
  · rw [h2]
    exact hmwf
  · have hlen : (g.ensureEntryFromUrl u ssr).1.mods.length = g.mods.length + 1 := by
      rw [h3]
      simp
    refine ⟨?_, ?_, ?_⟩
    · intro p hp
      rw [h4] at hp
      rw [hlen]
      rcases mem_alSet hp with rfl | hpm
      · exact Nat.lt_succ_self _
      · exact Nat.lt_succ_of_lt (hmwf.1 p hpm)
    · intro p hp
      rw [h5] at hp
      rw [hlen]
      rcases mem_alSet hp with rfl | hpm
      · exact Nat.lt_succ_self _
      · exact Nat.lt_succ_of_lt (hmwf.2.1 p hpm)
    · intro p hp n hn
      rw [h6] at hp
      rw [hlen]
      rcases mem_alSet hp with rfl | hpm
      · rcases mem_listAdd.mp hn with hn1 | rfl
        · rcases hget : alGet g.fileToModulesMap (cleanUrl (g.resolveUrl u ssr).2.1) with
            _ | s0
          · rw [hget] at hn1
            simp at hn1
          · rw [hget] at hn1
            exact Nat.lt_succ_of_lt (hmwf.2.2 _ (alGet_mem hget) n hn1)
        · exact Nat.lt_succ_self _
      · exact Nat.lt_succ_of_lt (hmwf.2.2 p hpm n hn)

/-- `ensureEntryFromUrl` preserves edge symmetry. -/
theorem ensureEntry_edgeSym {g : ModuleGraph} {u : String} {ssr : Bool}
    (hwf : EdgesWF g) (hsym : EdgeSym g) : EdgeSym (g.ensureEntryFromUrl u ssr).1 := by
  rcases ensureEntry_cases g u ssr with ⟨_, h2⟩ | ⟨_, _, h3, _⟩
  · rw [h2]
    exact hsym
  · exact edgeSym_append h3 rfl rfl hwf hsym

/-- `createFileOnlyEntry` preserves edge symmetry. -/
theorem createFileOnly_edgeSym {g : ModuleGraph} {file : String}
    (hwf : EdgesWF g) (hsym : EdgeSym g) : EdgeSym (g.createFileOnlyEntry file).1 := by
  rcases hm : alGet g.fileToModulesMap (normalizePath file) with _ | s
  · have hp' : (g.createFileOnlyEntry file).1 =
        { g with
            mods := g.mods ++ [{ ModuleNode.create (FS_PREFIX ++ normalizePath file) with
              file := some (normalizePath file) }],
            fileToModulesMap := alSet (alSet g.fileToModulesMap (normalizePath file) [])
              (normalizePath file) [g.mods.length] } := by
      simp [ModuleGraph.createFileOnlyEntry, hm, listAdd]
    rw [hp']
    exact edgeSym_append rfl rfl rfl hwf hsym
  · rcases hf : s.find? (fun m => (g.getMod m).url = (FS_PREFIX ++ normalizePath file) ||
        (g.getMod m).id = some (normalizePath file)) with _ | m
    · have hp' : (g.createFileOnlyEntry file).1 =
          { g with
              mods := g.mods ++ [{ ModuleNode.create (FS_PREFIX ++ normalizePath file) with
                file := some (normalizePath file) }],
              fileToModulesMap := alSet g.fileToModulesMap
                (normalizePath file) (listAdd s g.mods.length) } := by
        simp [ModuleGraph.createFileOnlyEntry, hm, hf]
      rw [hp']
      exact edgeSym_append rfl rfl rfl hwf hsym
    · have hp' : (g.createFileOnlyEntry file).1 = g := by
        simp [ModuleGraph.createFileOnlyEntry, hm, hf]
      rw [hp']
      exact hsym

/-- `invalidateModule` preserves edge symmetry. -/
theorem invalidateModule_edgeSym {g : ModuleGraph} {m : Nat} {seen : List Nat}
    {g' : ModuleGraph} {seen' : List Nat}
    (h : g.invalidateModule m seen = some (g', seen')) (hsym : EdgeSym g) : EdgeSym g' := by
  unfold ModuleGraph.invalidateModule invalidateSSRModule at h
  have hfr := invalidateSSRGo_frame _ _ _ _ _ _ h
  refine edgeSym_congr (hfr.2.1.trans (length_modifyMod _ _ _)) ?_ ?_ hsym
  · intro j
    rw [hfr.getMod_importers j]
    exact getMod_modifyMod_proj (fun m => m.importers) g m
      (fun node => { node with
        info := none, transformResult := none, ssrTransformResult := none })
      (fun _ => rfl) j
  · intro j
    rw [hfr.getMod_importedModules j]
    exact getMod_modifyMod_proj (fun m => m.importedModules) g m
      (fun node => { node with
        info := none, transformResult := none, ssrTransformResult := none })
      (fun _ => rfl) j

/-! ## Edge symmetry through updateModuleInfo -/

theorem entryOf_cases (g : ModuleGraph) (x : String ⊕ Nat) (ssr : Bool) :
    (g.entryOf x ssr).1 = g ∨
    ∃ node : ModuleNode, node.importers = [] ∧ node.importedModules = [] ∧
      (g.entryOf x ssr).1.mods = g.mods ++ [node] := by
  cases x with
  | inr d => exact Or.inl rfl
  | inl u =>
    rcases ensureEntry_cases g u ssr with ⟨_, h2⟩ | ⟨_, _, h3, _⟩
    · exact Or.inl h2
    · exact Or.inr ⟨_, rfl, rfl, h3⟩

theorem entryOf_edgesWF {g : ModuleGraph} {x : String ⊕ Nat} {ssr : Bool}
    (hwf : EdgesWF g) : EdgesWF (g.entryOf x ssr).1 := by
  cases x with
  | inl u => exact ensureEntry_edgesWF hwf
  | inr d => exact hwf

theorem entryOf_mapsWF {g : ModuleGraph} {x : String ⊕ Nat} {ssr : Bool}
    (hmwf : MapsWF g) : MapsWF (g.entryOf x ssr).1 := by
  cases x with
  | inl u => exact ensureEntry_mapsWF hmwf
  | inr d => exact hmwf

theorem entryOf_ret_lt {g : ModuleGraph} {x : String ⊕ Nat} {ssr : Bool}
    (hmwf : MapsWF g) (hx : ∀ d, x = Sum.inr d → d < g.mods.length) :
    (g.entryOf x ssr).2 < (g.entryOf x ssr).1.mods.length := by
  cases x with
  | inr d => exact hx d rfl
  | inl u =>
    show (g.ensureEntryFromUrl u ssr).2 < (g.ensureEntryFromUrl u ssr).1.mods.length
    rcases ensureEntry_cases g u ssr with ⟨h1, h2⟩ | ⟨_, h2, h3, _⟩
    · rw [h2]
      exact hmwf.1 _ (alGet_mem h1)
    · rw [h2, h3]
      simp

/-- Adding one importer keeps edge well-formedness when the added id is a
live node. -/
theorem edgesWF_addImporter {g : ModuleGraph} {t v : Nat} (hwf : EdgesWF g)
    (hv : v < g.mods.length) :
    EdgesWF (g.modifyMod t (fun m => { m with importers := listAdd m.importers v })) := by
  intro j hj
  rw [length_modifyMod] at hj ⊢
  by_cases hjt : j = t
  · subst hjt
    rw [getMod_modifyMod_self _ hj]
    obtain ⟨w1, w2, w3, w4⟩ := hwf j hj
    refine ⟨listAdd_nodup w1, ?_, w3, w4⟩
    intro i hi
    rcases mem_listAdd.mp hi with hi1 | rfl
    · exact w2 i hi1
    · exact hv
  · rw [getMod_modifyMod_of_ne _ (fun hc => hjt hc.symm)]
    exact hwf j hj

/-- Adding one forward edge keeps edge well-formedness when the added id is
a live node. -/
theorem edgesWF_addImported {g : ModuleGraph} {t v : Nat} (hwf : EdgesWF g)
    (hv : v < g.mods.length) :
    EdgesWF (g.modifyMod t
      (fun m => { m with importedModules := listAdd m.importedModules v })) := by
  intro j hj
  rw [length_modifyMod] at hj ⊢
  by_cases hjt : j = t
  · subst hjt
    rw [getMod_modifyMod_self _ hj]
    obtain ⟨w1, w2, w3, w4⟩ := hwf j hj
    refine ⟨w1, w2, listAdd_nodup w3, ?_⟩
    intro i hi
    rcases mem_listAdd.mp hi with hi1 | rfl
    · exact w4 i hi1
    · exact hv
  · rw [getMod_modifyMod_of_ne _ (fun hc => hjt hc.symm)]
    exact hwf j hj

/-- Clearing a node's forward edges keeps edge well-formedness. -/
theorem edgesWF_clearImported {g : ModuleGraph} {t : Nat} (hwf : EdgesWF g) :
    EdgesWF (g.modifyMod t (fun m => { m with importedModules := [] })) := by
  intro j hj
  rw [length_modifyMod] at hj ⊢
  by_cases hjt : j = t
  · subst hjt
    rw [getMod_modifyMod_self _ hj]
    obtain ⟨w1, w2, _, _⟩ := hwf j hj
    exact ⟨w1, w2, List.nodup_nil, fun i hi => absurd hi (List.not_mem_nil i)⟩
  · rw [getMod_modifyMod_of_ne _ (fun hc => hjt hc.symm)]
    exact hwf j hj

/-- Removing one importer keeps edge well-formedness. -/
theorem edgesWF_eraseImporter {g : ModuleGraph} {t v : Nat} (hwf : EdgesWF g) :
    EdgesWF (g.modifyMod t (fun m => { m with importers := m.importers.erase v })) := by
  intro j hj
  rw [length_modifyMod] at hj ⊢
  by_cases hjt : j = t
  · subst hjt
    rw [getMod_modifyMod_self _ hj]
    obtain ⟨w1, w2, w3, w4⟩ := hwf j hj
    exact ⟨w1.erase v, fun i hi => w2 i (List.mem_of_mem_erase hi), w3, w4⟩
  · rw [getMod_modifyMod_of_ne _ (fun hc => hjt hc.symm)]
    exact hwf j hj

/-- Node modifications do not affect index well-formedness. -/
theorem mapsWF_modify {g : ModuleGraph} {t : Nat} {f : ModuleNode → ModuleNode}
    (hmwf : MapsWF g) : MapsWF (g.modifyMod t f) := by
  refine ⟨?_, ?_, ?_⟩ <;> intro p hp
  · rw [length_modifyMod]
    exact hmwf.1 p hp
  · rw [length_modifyMod]
    exact hmwf.2.1 p hp
  · intro n hn
    rw [length_modifyMod]
    exact hmwf.2.2 p hp n hn

theorem importers_modify_add_self {g : ModuleGraph} {t v : Nat} (ht : t < g.mods.length) :
    ((g.modifyMod t (fun m => { m with importers := listAdd m.importers v })).getMod t).importers =
      listAdd (g.getMod t).importers v := by
  rw [getMod_modifyMod_self _ ht]

theorem importedModules_modify_add_self {g : ModuleGraph} {t v : Nat} (ht : t < g.mods.length) :
    ((g.modifyMod t
        (fun m => { m with importedModules := listAdd m.importedModules v })).getMod t).importedModules =
      listAdd (g.getMod t).importedModules v := by
  rw [getMod_modifyMod_self _ ht]

theorem importers_modify_erase_self {g : ModuleGraph} {t v : Nat} (ht : t < g.mods.length) :
    ((g.modifyMod t (fun m => { m with importers := m.importers.erase v })).getMod t).importers =
      (g.getMod t).importers.erase v := by
  rw [getMod_modifyMod_self _ ht]

/-- Appending one node with empty edge lists preserves the partial symmetry
invariant on a graph with well-formed edges. -/
theorem partialSym_append {g h : ModuleGraph} {x : ModuleNode} {mod : Nat}
    (hm : h.mods = g.mods ++ [x]) (hx1 : x.importers = []) (hx2 : x.importedModules = [])
    (hwf : EdgesWF g) (hps : PartialSym mod g) : PartialSym mod h := by
  have hlen : h.mods.length = g.mods.length + 1 := by rw [hm]; simp
  intro a ha b hb hbm
  rw [hlen] at ha hb
  obtain ⟨hgx, hother⟩ := getMod_of_mods_append hm
  by_cases hbl : b = g.mods.length
  · subst hbl
    rw [hgx, hx2]
    by_cases hal : a = g.mods.length
    · subst hal
      rw [hgx, hx1]
    · rw [hother a hal]
      have halt : a < g.mods.length := by omega
      constructor
      · intro hc
        exact absurd hc (List.not_mem_nil a)
      · intro hc
        exact absurd ((hwf a halt).2.1 _ hc) (Nat.lt_irrefl _)
  · rw [hother b hbl]
    have hblt : b < g.mods.length := by omega
    by_cases hal : a = g.mods.length
    · subst hal
      rw [hgx, hx1]
      constructor
      · intro hc
        exact absurd ((hwf b hblt).2.2.2 _ hc) (Nat.lt_irrefl _)
      · intro hc
        exact absurd hc (List.not_mem_nil b)
    · rw [hother a hal]
      have halt : a < g.mods.length := by omega
      exact hps a halt b hblt hbm

/-- Appending one node with empty edge lists preserves the importer
invariant when the reconciled node and the pending list stay in range. -/
theorem importerInv_append {g h : ModuleGraph} {x : ModuleNode} {mod : Nat} {P : List Nat}
    (hm : h.mods = g.mods ++ [x]) (hx1 : x.importers = [])
    (hwf : EdgesWF g) (hmod : mod < g.mods.length) (hP : ∀ p ∈ P, p < g.mods.length)
    (hinv : ImporterInv mod P g) : ImporterInv mod P h := by
  have hlen : h.mods.length = g.mods.length + 1 := by rw [hm]; simp
  intro a ha
  rw [hlen] at ha
  obtain ⟨hgx, hother⟩ := getMod_of_mods_append hm
  have hmodo : h.getMod mod = g.getMod mod := hother mod (Nat.ne_of_lt hmod)
  by_cases hal : a = g.mods.length
  · subst hal
    rw [hgx, hx1, hmodo]
    constructor
    · intro hc
      exact absurd hc (List.not_mem_nil mod)
    · intro hc
      rcases hc with hc | hc
      · exact absurd ((hwf mod hmod).2.2.2 _ hc) (Nat.lt_irrefl _)
      · exact absurd (hP _ hc) (Nat.lt_irrefl _)
  · rw [hother a hal, hmodo]
    have halt : a < g.mods.length := by omega
    exact hinv a halt

theorem entryOf_partialSym {g : ModuleGraph} {x : String ⊕ Nat} {ssr : Bool} {mod : Nat}
    (hwf : EdgesWF g) (hps : PartialSym mod g) : PartialSym mod (g.entryOf x ssr).1 := by
  rcases entryOf_cases g x ssr with he | ⟨n, h1, h2, h3⟩
  · rw [he]
    exact hps
  · exact partialSym_append h3 h1 h2 hwf hps

theorem entryOf_importerInv {g : ModuleGraph} {x : String ⊕ Nat} {ssr : Bool} {mod : Nat}
    {P : List Nat} (hwf : EdgesWF g) (hmod : mod < g.mods.length)
    (hP : ∀ p ∈ P, p < g.mods.length) (hinv : ImporterInv mod P g) :
    ImporterInv mod P (g.entryOf x ssr).1 := by
  rcases entryOf_cases g x ssr with he | ⟨n, h1, _, h3⟩
  · rw [he]
    exact hinv
  · exact importerInv_append h3 h1 hwf hmod hP hinv

/-- Registering the reconciled node as importer of a dependency preserves
partial symmetry, since the invariant never reads that back-edge. -/
theorem partialSym_addImporter {g : ModuleGraph} {mod dep : Nat}
    (hps : PartialSym mod g) :
    PartialSym mod
      (g.modifyMod dep (fun m => { m with importers := listAdd m.importers mod })) := by
  intro a ha b hb hbm
  rw [length_modifyMod] at ha hb
  rw [getMod_modifyMod_proj (fun m => m.importedModules) g dep
    (fun m => { m with importers := listAdd m.importers mod }) (fun m => rfl) b]
  by_cases had : a = dep
  · subst had
    rw [importers_modify_add_self ha]
    constructor
    · intro h1
      exact mem_listAdd.mpr (Or.inl ((hps a ha b hb hbm).mp h1))
    · intro h1
      rcases mem_listAdd.mp h1 with h2 | h2
      · exact (hps a ha b hb hbm).mpr h2
      · exact absurd h2 hbm
  · rw [getMod_modifyMod_of_ne _ (fun hc => had hc.symm)]
    exact hps a ha b hb hbm

/-- Recording a new forward edge on the reconciled node preserves partial
symmetry, which only reads other nodes' forward edges. -/
theorem partialSym_addImported {g : ModuleGraph} {mod dep : Nat}
    (hps : PartialSym mod g) :
    PartialSym mod
      (g.modifyMod mod (fun m => { m with importedModules := listAdd m.importedModules dep })) := by
  intro a ha b hb hbm
  rw [length_modifyMod] at ha hb
  rw [getMod_modifyMod_proj (fun m => m.importers) g mod
    (fun m => { m with importedModules := listAdd m.importedModules dep }) (fun m => rfl) a]
  rw [getMod_modifyMod_of_ne _ (fun hc => hbm hc.symm)]
  exact hps a ha b hb hbm

/-- One iteration of the import-reconciliation loop keeps the importer
invariant: the dependency gains the back-edge exactly as the reconciled
node's forward list gains it. -/
theorem importerInv_step {g : ModuleGraph} {mod dep : Nat} {P : List Nat}
    (hmod : mod < g.mods.length) (hdep : dep < g.mods.length)
    (hinv : ImporterInv mod P g) :
    ImporterInv mod P
      ((g.modifyMod dep (fun m => { m with importers := listAdd m.importers mod })).modifyMod mod
        (fun m => { m with importedModules := listAdd m.importedModules dep })) := by
  intro a ha
  rw [length_modifyMod, length_modifyMod] at ha
  rw [getMod_modifyMod_proj (fun m => m.importers)
    (g.modifyMod dep (fun m => { m with importers := listAdd m.importers mod })) mod
    (fun m => { m with importedModules := listAdd m.importedModules dep }) (fun m => rfl) a]
  have hmodA : mod <
      (g.modifyMod dep (fun m => { m with importers := listAdd m.importers mod })).mods.length := by
    rw [length_modifyMod]
    exact hmod
  rw [importedModules_modify_add_self hmodA]
  rw [getMod_modifyMod_proj (fun m => m.importedModules) g dep
    (fun m => { m with importers := listAdd m.importers mod }) (fun m => rfl) mod]
  by_cases had : a = dep
  · subst had
    rw [importers_modify_add_self (by exact ha)]
    constructor
    · intro _
      exact Or.inl (mem_listAdd_self _ _)
    · intro _
      exact mem_listAdd_self _ _
  · rw [getMod_modifyMod_of_ne _ (fun hc => had hc.symm)]
    have h0 := hinv a ha
    constructor
    · intro h1
      rcases h0.mp h1 with h2 | h2
      · exact Or.inl (mem_listAdd.mpr (Or.inl h2))
      · exact Or.inr h2
    · intro h1
      rcases h1 with h2 | h2
      · rcases mem_listAdd.mp h2 with h3 | h3
        · exact h0.mpr (Or.inl h3)
        · exact absurd h3 had
      · exact h0.mpr (Or.inr h2)

/-- The import-reconciliation loop preserves well-formedness, partial
symmetry, and the importer invariant with an unchanged pending set. -/
theorem importsLoop_sym (ssr : Bool) (mod : Nat) (imps : List (String ⊕ Nat)) :
    ∀ (g : ModuleGraph) (P : List Nat),
      EdgesWF g → MapsWF g → mod < g.mods.length →
      (∀ p ∈ P, p < g.mods.length) →
      (∀ d, Sum.inr d ∈ imps → d < g.mods.length) →
      PartialSym mod g → ImporterInv mod P g →
      EdgesWF (updateImportsLoop ssr mod g imps) ∧
      MapsWF (updateImportsLoop ssr mod g imps) ∧
      g.mods.length ≤ (updateImportsLoop ssr mod g imps).mods.length ∧
      PartialSym mod (updateImportsLoop ssr mod g imps) ∧
      ImporterInv mod P (updateImportsLoop ssr mod g imps) := by
  induction imps with
  | nil =>
    intro g P hwf hmwf hmod hP _ hps hinv
    rw [updateImportsLoop_nil]
    exact ⟨hwf, hmwf, Nat.le_refl _, hps, hinv⟩
  | cons x rest ih =>
    intro g P hwf hmwf hmod hP hd hps hinv
    rw [updateImportsLoop_cons]
    have hwf' : EdgesWF (g.entryOf x ssr).1 := entryOf_edgesWF hwf
    have hmwf' : MapsWF (g.entryOf x ssr).1 := entryOf_mapsWF hmwf
    have hlen' : g.mods.length ≤ (g.entryOf x ssr).1.mods.length := entryOf_len_mono g x ssr
    have hmod' : mod < (g.entryOf x ssr).1.mods.length := Nat.lt_of_lt_of_le hmod hlen'
    have hdep : (g.entryOf x ssr).2 < (g.entryOf x ssr).1.mods.length :=
      entryOf_ret_lt hmwf (fun d hdx => hd d (by rw [← hdx]; exact List.mem_cons_self x rest))
    have hps' : PartialSym mod (g.entryOf x ssr).1 := entryOf_partialSym hwf hps
    have hinv' : ImporterInv mod P (g.entryOf x ssr).1 := entryOf_importerInv hwf hmod hP hinv
    have hdepA : (g.entryOf x ssr).2 <
        ((g.entryOf x ssr).1.modifyMod (g.entryOf x ssr).2
          (fun m => { m with importers := listAdd m.importers mod })).mods.length := by
      rw [length_modifyMod]
      exact hdep
    have hBwf : EdgesWF
        (((g.entryOf x ssr).1.modifyMod (g.entryOf x ssr).2
            (fun m => { m with importers := listAdd m.importers mod })).modifyMod mod
          (fun m => { m with importedModules := listAdd m.importedModules (g.entryOf x ssr).2 })) :=
      edgesWF_addImported (edgesWF_addImporter hwf' hmod') hdepA
    obtain ⟨c1, c2, c3, c4, c5⟩ := ih _ P hBwf (mapsWF_modify (mapsWF_modify hmwf'))
      (by rw [length_modifyMod, length_modifyMod]; exact hmod')
      (fun p hp => by
        rw [length_modifyMod, length_modifyMod]
        exact Nat.lt_of_lt_of_le (hP p hp) hlen')
      (fun d hd2 => by
        rw [length_modifyMod, length_modifyMod]
        exact Nat.lt_of_lt_of_le (hd d (List.mem_cons_of_mem x hd2)) hlen')
      (partialSym_addImported (partialSym_addImporter hps'))
      (importerInv_step hmod' hdep hinv')
    refine ⟨c1, c2, ?_, c4, c5⟩
    refine Nat.le_trans (Nat.le_trans hlen' (Nat.le_of_eq ?_)) c3
    rw [length_modifyMod, length_modifyMod]

/-- The stale-import pruning loop consumes the pending set: afterwards a
node lists `mod` as importer exactly when it is among the rebuilt forward
edges. -/
theorem pruneLoop_sym (mod : Nat) (P : List Nat) :
    ∀ (g : ModuleGraph) (nl : Option (List Nat)),
      EdgesWF g → MapsWF g → mod < g.mods.length →
      (∀ p ∈ P, p < g.mods.length) → P.Nodup →
      PartialSym mod g → ImporterInv mod P g →
      EdgesWF (pruneImportsLoop mod g nl P).1 ∧
      MapsWF (pruneImportsLoop mod g nl P).1 ∧
      (pruneImportsLoop mod g nl P).1.mods.length = g.mods.length ∧
      PartialSym mod (pruneImportsLoop mod g nl P).1 ∧
      ImporterInv mod [] (pruneImportsLoop mod g nl P).1 := by
  induction P with
  | nil =>
    intro g nl hwf hmwf _ _ _ hps hinv
    rw [pruneImportsLoop_nil]
    exact ⟨hwf, hmwf, rfl, hps, hinv⟩
  | cons dep rest ih =>
    intro g nl hwf hmwf hmod hP hnd hps hinv
    obtain ⟨hdnr, hndr⟩ := List.nodup_cons.mp hnd
    have hdep : dep < g.mods.length := hP dep (List.mem_cons_self dep rest)
    by_cases hskip : dep ∈ (g.getMod mod).importedModules
    · rw [pruneImportsLoop_skip rest hskip]
      refine ih g nl hwf hmwf hmod (fun p hp => hP p (List.mem_cons_of_mem dep hp)) hndr hps ?_
      intro a ha
      have h0 := hinv a ha
      constructor
      · intro h1
        rcases h0.mp h1 with h2 | h2
        · exact Or.inl h2
        · rcases List.mem_cons.mp h2 with h3 | h3
          · rw [h3]
            exact Or.inl hskip
          · exact Or.inr h3
      · intro h1
        rcases h1 with h2 | h2
        · exact h0.mpr (Or.inl h2)
        · exact h0.mpr (Or.inr (List.mem_cons_of_mem dep h2))
    · rw [pruneImportsLoop_remove rest hskip]
      have hpsE : PartialSym mod
          (g.modifyMod dep (fun m => { m with importers := m.importers.erase mod })) := by
        intro a ha b hb hbm
        rw [length_modifyMod] at ha hb
        rw [getMod_modifyMod_proj (fun m => m.importedModules) g dep
          (fun m => { m with importers := m.importers.erase mod }) (fun m => rfl) b]
        by_cases had : a = dep
        · subst had
          rw [importers_modify_erase_self ha]
          rw [List.mem_erase_of_ne hbm]
          exact hps a ha b hb hbm
        · rw [getMod_modifyMod_of_ne _ (fun hc => had hc.symm)]
          exact hps a ha b hb hbm
      have hinvE : ImporterInv mod rest
          (g.modifyMod dep (fun m => { m with importers := m.importers.erase mod })) := by
        intro a ha
        rw [length_modifyMod] at ha
        rw [getMod_modifyMod_proj (fun m => m.importedModules) g dep
          (fun m => { m with importers := m.importers.erase mod }) (fun m => rfl) mod]
        by_cases had : a = dep
        · subst had
          rw [importers_modify_erase_self ha]
          constructor
          · intro h1
            exact absurd h1 ((hwf a ha).1.not_mem_erase)
          · intro h1
            rcases h1 with h2 | h2
            · exact absurd h2 hskip
            · exact absurd h2 hdnr
        · rw [getMod_modifyMod_of_ne _ (fun hc => had hc.symm)]
          have h0 := hinv a ha
          constructor
          · intro h1
            rcases h0.mp h1 with h2 | h2
            · exact Or.inl h2
            · rcases List.mem_cons.mp h2 with h3 | h3
              · exact absurd h3 had
              · exact Or.inr h3
          · intro h1
            rcases h1 with h2 | h2
            · exact h0.mpr (Or.inl h2)
            · exact h0.mpr (Or.inr (List.mem_cons_of_mem dep h2))
      obtain ⟨c1, c2, c3, c4, c5⟩ := ih
        (g.modifyMod dep (fun m => { m with importers := m.importers.erase mod })) _
        (edgesWF_eraseImporter hwf) (mapsWF_modify hmwf)
        (by rw [length_modifyMod]; exact hmod)
        (fun p hp => by
          rw [length_modifyMod]
          exact hP p (List.mem_cons_of_mem dep hp))
        hndr hpsE hinvE
      refine ⟨c1, c2, ?_, c4, c5⟩
      rw [c3, length_modifyMod]

theorem entryOf_edgeSym {g : ModuleGraph} {x : String ⊕ Nat} {ssr : Bool}
    (hwf : EdgesWF g) (hsym : EdgeSym g) : EdgeSym (g.entryOf x ssr).1 := by
  cases x with
  | inl u => exact ensureEntry_edgeSym hwf hsym
  | inr d => exact hsym

/-- The accepted-dependency registration loop touches only
`acceptedHmrDeps`, so it preserves edge structure facts. -/
theorem acceptedLoop_sym (ssr : Bool) (mod : Nat) (acc : List (String ⊕ Nat)) :
    ∀ g : ModuleGraph, EdgesWF g → MapsWF g → EdgeSym g →
      EdgesWF (acceptedLoop ssr mod g acc) ∧ MapsWF (acceptedLoop ssr mod g acc) ∧
      EdgeSym (acceptedLoop ssr mod g acc) := by
  induction acc with
  | nil =>
    intro g hwf hmwf hsym
    rw [acceptedLoop_nil]
    exact ⟨hwf, hmwf, hsym⟩
  | cons x rest ih =>
    intro g hwf hmwf hsym
    rw [acceptedLoop_cons]
    refine ih _ (edgesWF_modifyMod (fun m => rfl) (fun m => rfl) (entryOf_edgesWF hwf))
      (mapsWF_modify (entryOf_mapsWF hmwf)) ?_
    refine edgeSym_congr (length_modifyMod _ _ _) ?_ ?_ (entryOf_edgeSym hwf hsym)
    · intro j
      exact getMod_modifyMod_proj (fun m => m.importers) (g.entryOf x ssr).1 mod
        (fun m => { m with acceptedHmrDeps := listAdd m.acceptedHmrDeps (g.entryOf x ssr).2 })
        (fun m => rfl) j
    · intro j
      exact getMod_modifyMod_proj (fun m => m.importedModules) (g.entryOf x ssr).1 mod
        (fun m => { m with acceptedHmrDeps := listAdd m.acceptedHmrDeps (g.entryOf x ssr).2 })
        (fun m => rfl) j

theorem importedModules_modify_clear_self {g : ModuleGraph} {t : Nat} (ht : t < g.mods.length) :
    ((g.modifyMod t (fun m => { m with importedModules := [] })).getMod t).importedModules = [] := by
  rw [getMod_modifyMod_self _ ht]

/-- Partial symmetry plus an exhausted pending set yield full symmetry. -/
theorem edgeSym_of_partial {g : ModuleGraph} {mod : Nat}
    (hps : PartialSym mod g) (hinv : ImporterInv mod [] g) : EdgeSym g := by
  intro a ha b hb
  by_cases hbm : b = mod
  · subst hbm
    have h0 := hinv a ha
    constructor
    · intro h1
      exact h0.mpr (Or.inl h1)
    · intro h1
      rcases h0.mp h1 with h2 | h2
      · exact h2
      · exact absurd h2 (List.not_mem_nil a)
  · exact hps a ha b hb hbm

set_option maxHeartbeats 1000000 in
/-- `updateModuleInfo` restores edge symmetry: the rebuilt forward edges and
back-edges, with the prune pass removing stale back-edges, leave a graph
whose edges are again symmetric. -/
theorem updateModuleInfo_edgeSym {g : ModuleGraph} {mod : Nat}
    {imps acc : List (String ⊕ Nat)} {sa ssr : Bool}
    (hwf : EdgesWF g) (hmwf : MapsWF g) (hmod : mod < g.mods.length)
    (hd : ∀ d, Sum.inr d ∈ imps → d < g.mods.length)
    (hsym : EdgeSym g) :
    EdgeSym (g.updateModuleInfo mod imps acc sa ssr).1 := by
  rw [updateModuleInfo_eq]
  have hmod1 : mod <
      (g.modifyMod mod (fun m => { m with isSelfAccepting := sa })).mods.length := by
    rw [length_modifyMod]
    exact hmod
  have hwf2 : EdgesWF
      ((g.modifyMod mod (fun m => { m with isSelfAccepting := sa })).modifyMod mod
        (fun m => { m with importedModules := [] })) :=
    edgesWF_clearImported (edgesWF_modifyMod (fun m => rfl) (fun m => rfl) hwf)
  have hPeq : ((g.modifyMod mod
      (fun m => { m with isSelfAccepting := sa })).getMod mod).importedModules =
      (g.getMod mod).importedModules :=
    getMod_modifyMod_proj (fun m => m.importedModules) g mod
      (fun m => { m with isSelfAccepting := sa }) (fun m => rfl) mod
  have himp2 : ∀ a, (((g.modifyMod mod
      (fun m => { m with isSelfAccepting := sa })).modifyMod mod
        (fun m => { m with importedModules := [] })).getMod a).importers =
      (g.getMod a).importers := by
    intro a
    rw [getMod_modifyMod_proj (fun m => m.importers)
      (g.modifyMod mod (fun m => { m with isSelfAccepting := sa })) mod
      (fun m => { m with importedModules := [] }) (fun m => rfl) a]
    exact getMod_modifyMod_proj (fun m => m.importers) g mod
      (fun m => { m with isSelfAccepting := sa }) (fun m => rfl) a
  have hps2 : PartialSym mod
      ((g.modifyMod mod (fun m => { m with isSelfAccepting := sa })).modifyMod mod
        (fun m => { m with importedModules := [] })) := by
    intro a ha b hb hbm
    rw [length_modifyMod, length_modifyMod] at ha hb
    rw [himp2 a]
    rw [getMod_modifyMod_of_ne _ (fun hc => hbm hc.symm),
      getMod_modifyMod_of_ne _ (fun hc => hbm hc.symm)]
    exact hsym a ha b hb
  have hinv2 : ImporterInv mod ((g.modifyMod mod
      (fun m => { m with isSelfAccepting := sa })).getMod mod).importedModules
      ((g.modifyMod mod (fun m => { m with isSelfAccepting := sa })).modifyMod mod
        (fun m => { m with importedModules := [] })) := by
    intro a ha
    rw [length_modifyMod, length_modifyMod] at ha
    rw [himp2 a, importedModules_modify_clear_self hmod1, hPeq]
    constructor
    · intro h1
      exact Or.inr ((hsym a ha mod hmod).mpr h1)
    · intro h1
      rcases h1 with h2 | h2
      · exact absurd h2 (List.not_mem_nil a)
      · exact (hsym a ha mod hmod).mp h2
  obtain ⟨e1, e2, e3, e4, e5⟩ := importsLoop_sym ssr mod imps _ _ hwf2
    (mapsWF_modify (mapsWF_modify hmwf))
    (by rw [length_modifyMod, length_modifyMod]; exact hmod)
    (fun p hp => by
      rw [length_modifyMod, length_modifyMod]
      rw [hPeq] at hp
      exact (hwf mod hmod).2.2.2 p hp)
    (fun d hd2 => by
      rw [length_modifyMod, length_modifyMod]
      exact hd d hd2)
    hps2 hinv2
  obtain ⟨p1, p2, p3, p4, p5⟩ := pruneLoop_sym mod
    ((g.modifyMod mod (fun m => { m with isSelfAccepting := sa })).getMod mod).importedModules
    _ none e1 e2
    (Nat.lt_of_lt_of_le (by rw [length_modifyMod, length_modifyMod]; exact hmod) e3)
    (fun p hp => by
      refine Nat.lt_of_lt_of_le ?_ e3
      rw [length_modifyMod, length_modifyMod]
      rw [hPeq] at hp
      exact (hwf mod hmod).2.2.2 p hp)
    (by rw [hPeq]; exact (hwf mod hmod).2.2.1)
    e4 e5
  have hsym4 := edgeSym_of_partial p4 p5
  have hsym5 : EdgeSym ((pruneImportsLoop mod
      (updateImportsLoop ssr mod
        ((g.modifyMod mod (fun m => { m with isSelfAccepting := sa })).modifyMod mod
          (fun m => { m with importedModules := [] }))
        imps)
      none
      (((g.modifyMod mod (fun m => { m with isSelfAccepting := sa })).getMod
        mod).importedModules)).1.modifyMod mod
      (fun m => { m with acceptedHmrDeps := [] })) := by
    refine edgeSym_congr (length_modifyMod _ _ _) ?_ ?_ hsym4
    · intro j
      exact getMod_modifyMod_proj (fun m => m.importers) _ mod
        (fun m => { m with acceptedHmrDeps := [] }) (fun m => rfl) j
    · intro j
      exact getMod_modifyMod_proj (fun m => m.importedModules) _ mod
        (fun m => { m with acceptedHmrDeps := [] }) (fun m => rfl) j
  refine (acceptedLoop_sym ssr mod acc _ ?_ (mapsWF_modify p2) hsym5).2.2
  exact edgesWF_modifyMod (fun m => rfl) (fun m => rfl) p1

/-- C1: Edge symmetry invariant — for every pair of module nodes A and B,
A is in B's `importedModules` iff B is in A's `importers`, and this is
preserved by every graph operation: `ensureEntryFromUrl`,
`createFileOnlyEntry`, `invalidateModule`, and in particular
`updateModuleInfo`, which adds back-edges for fresh imports and deletes
back-edges for imports no longer present. -/
theorem C1_edge_symmetry (g : ModuleGraph) (u file : String) (ssr : Bool)
    (mod : Nat) (imps acc : List (String ⊕ Nat)) (sa : Bool)
    (m : Nat) (seen : List Nat) (g' : ModuleGraph) (seen' : List Nat)
    (hwf : EdgesWF g) (hmwf : MapsWF g) (hsym : EdgeSym g)
    (hmod : mod < g.mods.length)
    (hd : ∀ d, Sum.inr d ∈ imps → d < g.mods.length)
    (hinval : g.invalidateModule m seen = some (g', seen')) :
    EdgeSym (g.ensureEntryFromUrl u ssr).1 ∧
    EdgeSym (g.createFileOnlyEntry file).1 ∧
    EdgeSym g' ∧
    EdgeSym (g.updateModuleInfo mod imps acc sa ssr).1 :=
  ⟨ensureEntry_edgeSym hwf hsym, createFileOnly_edgeSym hwf hsym,
    invalidateModule_edgeSym hinval hsym,
    updateModuleInfo_edgeSym hwf hmwf hmod hd hsym⟩

theorem C1_edge_symmetry_witness :
    EdgeSym (wCycleGraph.ensureEntryFromUrl "/a" false).1 ∧
    EdgeSym (wCycleGraph.createFileOnlyEntry "/f.js").1 ∧
    EdgeSym ((wCycleGraph.invalidateModule 0 []).getD (wCycleGraph, [])).1 ∧
    EdgeSym (wCycleGraph.updateModuleInfo 0 [Sum.inr 1] [] true false).1 :=
  C1_edge_symmetry wCycleGraph "/a" "/f.js" false 0 [Sum.inr 1] [] true 0 []
    ((wCycleGraph.invalidateModule 0 []).getD (wCycleGraph, [])).1
    ((wCycleGraph.invalidateModule 0 []).getD (wCycleGraph, [])).2
    (by decide) (by decide) (by decide) (by decide)
    (fun d hd => by
      simp at hd
      subst hd
      decide)
    (by rfl)

/-! ## Index consistency -/

theorem CascadeFrame.getMod_url {g g' : ModuleGraph} {s s' : List Nat}
    (h : CascadeFrame g g' s s') (j : Nat) : (g'.getMod j).url = (g.getMod j).url := by
  rw [h.2.2.1 j]
  by_cases hj : j ∈ s' ∧ j ∉ s <;> simp [hj]

theorem CascadeFrame.getMod_id {g g' : ModuleGraph} {s s' : List Nat}
    (h : CascadeFrame g g' s s') (j : Nat) : (g'.getMod j).id = (g.getMod j).id := by
  rw [h.2.2.1 j]
  by_cases hj : j ∈ s' ∧ j ∉ s <;> simp [hj]

theorem CascadeFrame.getMod_file {g g' : ModuleGraph} {s s' : List Nat}
    (h : CascadeFrame g g' s s') (j : Nat) : (g'.getMod j).file = (g.getMod j).file := by
  rw [h.2.2.1 j]
  by_cases hj : j ∈ s' ∧ j ∉ s <;> simp [hj]

theorem indexInv_congr {g g' : ModuleGraph}
    (hl : g'.mods.length = g.mods.length)
    (hum : g'.urlToModuleMap = g.urlToModuleMap)
    (him : g'.idToModuleMap = g.idToModuleMap)
    (hfm : g'.fileToModulesMap = g.fileToModulesMap)
    (hurl : ∀ j, (g'.getMod j).url = (g.getMod j).url)
    (hid : ∀ j, (g'.getMod j).id = (g.getMod j).id)
    (hfile : ∀ j, (g'.getMod j).file = (g.getMod j).file)
    (h : IndexInv g) : IndexInv g' := by
  obtain ⟨h1, h2, h3, h4⟩ := h
  refine ⟨?_, ?_, ?_, ?_⟩
  · intro p hp
    rw [hum] at hp
    rw [hl, hurl]
    exact h1 p hp
  · intro p hp
    rw [him] at hp
    rw [hl, hid]
    exact h2 p hp
  · intro p hp n hn
    rw [hfm] at hp
    rw [hl, hfile]
    exact h3 p hp n hn
  · intro i hi f hf
    rw [hl] at hi
    rw [hfile] at hf
    rw [hfm]
    exact h4 i hi f hf

/-- Node modifications leaving `url`, `id` and `file` untouched preserve
index consistency. -/
theorem indexInv_modify {g : ModuleGraph} {t : Nat} {f : ModuleNode → ModuleNode}
    (hurl : ∀ m, (f m).url = m.url) (hid : ∀ m, (f m).id = m.id)
    (hfile : ∀ m, (f m).file = m.file)
    (h : IndexInv g) : IndexInv (g.modifyMod t f) :=
  indexInv_congr (length_modifyMod g t f) rfl rfl rfl
    (getMod_modifyMod_proj (fun m => m.url) g t f hurl)
    (getMod_modifyMod_proj (fun m => m.id) g t f hid)
    (getMod_modifyMod_proj (fun m => m.file) g t f hfile) h

/-- `invalidateModule` preserves index consistency. -/
theorem invalidateModule_indexInv {g : ModuleGraph} {m : Nat} {seen : List Nat}
    {g' : ModuleGraph} {seen' : List Nat}
    (h : g.invalidateModule m seen = some (g', seen')) (hinv : IndexInv g) : IndexInv g' := by
  unfold ModuleGraph.invalidateModule invalidateSSRModule at h
  have hfr := invalidateSSRGo_frame _ _ _ _ _ _ h
  refine indexInv_congr (hfr.2.1.trans (length_modifyMod _ _ _))
    hfr.2.2.2.1 hfr.2.2.2.2.1 hfr.2.2.2.2.2.1 ?_ ?_ ?_ hinv
  · intro j
    rw [hfr.getMod_url j]
    exact getMod_modifyMod_proj (fun m => m.url) g m
      (fun node => { node with
        info := none, transformResult := none, ssrTransformResult := none })
      (fun _ => rfl) j
  · intro j
    rw [hfr.getMod_id j]
    exact getMod_modifyMod_proj (fun m => m.id) g m
      (fun node => { node with
        info := none, transformResult := none, ssrTransformResult := none })
      (fun _ => rfl) j
  · intro j
    rw [hfr.getMod_file j]
    exact getMod_modifyMod_proj (fun m => m.file) g m
      (fun node => { node with
        info := none, transformResult := none, ssrTransformResult := none })
      (fun _ => rfl) j

/-- `ensureEntryFromUrl` preserves index consistency: a fresh node is
registered under its canonical url, its resolved id, and its file. -/
theorem ensureEntry_indexInv {g : ModuleGraph} {u : String} {ssr : Bool}
    (h : IndexInv g) : IndexInv (g.ensureEntryFromUrl u ssr).1 := by
  rcases ensureEntry_cases g u ssr with ⟨_, h2⟩ | ⟨_, _, h3, h4, h5, h6, _⟩
  · rw [h2]
    exact h
  · obtain ⟨hgx, hother⟩ := getMod_of_mods_append h3
    have hlen : (g.ensureEntryFromUrl u ssr).1.mods.length = g.mods.length + 1 := by
      rw [h3]
      simp
    obtain ⟨h1, hh2, hh3, hh4⟩ := h
    refine ⟨?_, ?_, ?_, ?_⟩
    · intro p hp
      rw [h4] at hp
      rw [hlen]
      rcases mem_alSet hp with heq | hp'
      · rw [heq]
        refine ⟨Nat.lt_succ_self _, ?_⟩
        rw [hgx]
        rfl
      · obtain ⟨hb, hu⟩ := h1 p hp'
        exact ⟨Nat.lt_succ_of_lt hb, by rw [hother p.2 (Nat.ne_of_lt hb)]; exact hu⟩
    · intro p hp
      rw [h5] at hp
      rw [hlen]
      rcases mem_alSet hp with heq | hp'
      · rw [heq]
        refine ⟨Nat.lt_succ_self _, ?_⟩
        rw [hgx]
      · obtain ⟨hb, hu⟩ := hh2 p hp'
        exact ⟨Nat.lt_succ_of_lt hb, by rw [hother p.2 (Nat.ne_of_lt hb)]; exact hu⟩
    · intro p hp n hn
      rw [h6] at hp
      rw [hlen]
      rcases mem_alSet hp with heq | hp'
      · rw [heq] at hn ⊢
        rcases mem_listAdd.mp hn with hn' | heq2
        · rcases halg : alGet g.fileToModulesMap (cleanUrl (g.resolveUrl u ssr).2.1)
            with _ | s0
          · rw [halg] at hn'
            exact absurd hn' (List.not_mem_nil n)
          · rw [halg] at hn'
            obtain ⟨hb, hf⟩ := hh3 _ (alGet_mem halg) n hn'
            exact ⟨Nat.lt_succ_of_lt hb, by rw [hother n (Nat.ne_of_lt hb)]; exact hf⟩
        · rw [heq2]
          refine ⟨Nat.lt_succ_self _, ?_⟩
          rw [hgx]
      · obtain ⟨hb, hf⟩ := hh3 p hp' n hn
        exact ⟨Nat.lt_succ_of_lt hb, by rw [hother n (Nat.ne_of_lt hb)]; exact hf⟩
    · intro i hi f hf
      rw [hlen] at hi
      rw [h6]
      by_cases hil : i = g.mods.length
      · subst hil
        rw [hgx] at hf
        have hfe : cleanUrl (g.resolveUrl u ssr).2.1 = f := by simpa using hf
        rw [alGet_alSet, if_pos hfe]
        exact mem_listAdd_self _ _
      · have hil' : i < g.mods.length := by omega
        rw [hother i hil] at hf
        have hold := hh4 i hil' f hf
        rw [alGet_alSet]
        by_cases hfk : cleanUrl (g.resolveUrl u ssr).2.1 = f
        · rw [if_pos hfk]
          rw [← hfk] at hold
          exact subset_listAdd _ _ hold
        · rw [if_neg hfk]
          exact hold

/-- Appending a node while leaving the url and id indices alone keeps those
two indices consistent. -/
theorem indexInv_append_node {g h : ModuleGraph} {x : ModuleNode}
    (hm : h.mods = g.mods ++ [x])
    (hu : h.urlToModuleMap = g.urlToModuleMap)
    (hi : h.idToModuleMap = g.idToModuleMap)
    (hinv : IndexInv g) :
    (∀ p ∈ h.urlToModuleMap, p.2 < h.mods.length ∧ (h.getMod p.2).url = p.1) ∧
    (∀ p ∈ h.idToModuleMap, p.2 < h.mods.length ∧ (h.getMod p.2).id = some p.1) := by
  have hlen : h.mods.length = g.mods.length + 1 := by rw [hm]; simp
  obtain ⟨_, hother⟩ := getMod_of_mods_append hm
  constructor
  · intro p hp
    rw [hu] at hp
    obtain ⟨hb, hf⟩ := hinv.1 p hp
    rw [hlen]
    exact ⟨Nat.lt_succ_of_lt hb, by rw [hother p.2 (Nat.ne_of_lt hb)]; exact hf⟩
  · intro p hp
    rw [hi] at hp
    obtain ⟨hb, hf⟩ := hinv.2.1 p hp
    rw [hlen]
    exact ⟨Nat.lt_succ_of_lt hb, by rw [hother p.2 (Nat.ne_of_lt hb)]; exact hf⟩

/-- `createFileOnlyEntry` preserves index consistency: the fresh node is
registered in the file index (and only there). -/
theorem createFileOnly_indexInv {g : ModuleGraph} {file : String}
    (hinv : IndexInv g) : IndexInv (g.createFileOnlyEntry file).1 := by
  rcases hm : alGet g.fileToModulesMap (normalizePath file) with _ | s
  · have hp' : (g.createFileOnlyEntry file).1 =
        { g with
            mods := g.mods ++ [{ ModuleNode.create (FS_PREFIX ++ normalizePath file) with
              file := some (normalizePath file) }],
            fileToModulesMap := alSet (alSet g.fileToModulesMap (normalizePath file) [])
              (normalizePath file) [g.mods.length] } := by
      simp [ModuleGraph.createFileOnlyEntry, hm, listAdd]
    have hmods : (g.createFileOnlyEntry file).1.mods =
        g.mods ++ [{ ModuleNode.create (FS_PREFIX ++ normalizePath file) with
          file := some (normalizePath file) }] := by
      rw [hp']
    have humap : (g.createFileOnlyEntry file).1.urlToModuleMap = g.urlToModuleMap := by
      rw [hp']
    have himap : (g.createFileOnlyEntry file).1.idToModuleMap = g.idToModuleMap := by
      rw [hp']
    have hfmap : (g.createFileOnlyEntry file).1.fileToModulesMap =
        alSet (alSet g.fileToModulesMap (normalizePath file) [])
          (normalizePath file) [g.mods.length] := by
      rw [hp']
    have hlen : (g.createFileOnlyEntry file).1.mods.length = g.mods.length + 1 := by
      rw [hmods]
      simp
    obtain ⟨hgx, hother⟩ := getMod_of_mods_append hmods
    obtain ⟨c1, c2⟩ := indexInv_append_node hmods humap himap hinv
    refine ⟨c1, c2, ?_, ?_⟩
    · intro p hp n hn
      rw [hfmap] at hp
      rw [hlen]
      rcases mem_alSet hp with heq | hp2
      · rw [heq] at hn ⊢
        rcases List.mem_singleton.mp hn with heq2
        rw [heq2]
        refine ⟨Nat.lt_succ_self _, ?_⟩
        rw [hgx]
      · rcases mem_alSet hp2 with heq | hp3
        · rw [heq] at hn
          exact absurd hn (List.not_mem_nil n)
        · obtain ⟨hb, hfl⟩ := hinv.2.2.1 p hp3 n hn
          refine ⟨Nat.lt_succ_of_lt hb, ?_⟩
          rw [hother n (Nat.ne_of_lt hb)]
          exact hfl
    · intro i hi f hf
      rw [hlen] at hi
      rw [hfmap]
      by_cases hil : i = g.mods.length
      · subst hil
        rw [hgx] at hf
        have hfe : normalizePath file = f := by simpa using hf
        rw [alGet_alSet, if_pos hfe]
        exact List.mem_singleton.mpr rfl
      · have hil' : i < g.mods.length := by omega
        rw [hother i hil] at hf
        have hold := hinv.2.2.2 i hil' f hf
        rw [alGet_alSet]
        by_cases hfk : normalizePath file = f
        · rw [← hfk] at hold
          rw [hm] at hold
          exact absurd hold (List.not_mem_nil i)
        · rw [if_neg hfk, alGet_alSet, if_neg hfk]
          exact hold
  · rcases hf : s.find? (fun m => (g.getMod m).url = (FS_PREFIX ++ normalizePath file) ||
        (g.getMod m).id = some (normalizePath file)) with _ | m
    · have hp' : (g.createFileOnlyEntry file).1 =
          { g with
              mods := g.mods ++ [{ ModuleNode.create (FS_PREFIX ++ normalizePath file) with
                file := some (normalizePath file) }],
              fileToModulesMap := alSet g.fileToModulesMap
                (normalizePath file) (listAdd s g.mods.length) } := by
        simp [ModuleGraph.createFileOnlyEntry, hm, hf]
      have hmods : (g.createFileOnlyEntry file).1.mods =
          g.mods ++ [{ ModuleNode.create (FS_PREFIX ++ normalizePath file) with
            file := some (normalizePath file) }] := by
        rw [hp']
      have humap : (g.createFileOnlyEntry file).1.urlToModuleMap = g.urlToModuleMap := by
        rw [hp']
      have himap : (g.createFileOnlyEntry file).1.idToModuleMap = g.idToModuleMap := by
        rw [hp']
      have hfmap : (g.createFileOnlyEntry file).1.fileToModulesMap =
          alSet g.fileToModulesMap (normalizePath file) (listAdd s g.mods.length) := by
        rw [hp']
      have hlen : (g.createFileOnlyEntry file).1.mods.length = g.mods.length + 1 := by
        rw [hmods]
        simp
      obtain ⟨hgx, hother⟩ := getMod_of_mods_append hmods
      obtain ⟨c1, c2⟩ := indexInv_append_node hmods humap himap hinv
      refine ⟨c1, c2, ?_, ?_⟩
      · intro p hp n hn
        rw [hfmap] at hp
        rw [hlen]
        rcases mem_alSet hp with heq | hp2
        · rw [heq] at hn ⊢
          rcases mem_listAdd.mp hn with hn2 | heq2
          · obtain ⟨hb, hfl⟩ := hinv.2.2.1 _ (alGet_mem hm) n hn2
            refine ⟨Nat.lt_succ_of_lt hb, ?_⟩
            rw [hother n (Nat.ne_of_lt hb)]
            exact hfl
          · rw [heq2]
            refine ⟨Nat.lt_succ_self _, ?_⟩
            rw [hgx]
        · obtain ⟨hb, hfl⟩ := hinv.2.2.1 p hp2 n hn
          refine ⟨Nat.lt_succ_of_lt hb, ?_⟩
          rw [hother n (Nat.ne_of_lt hb)]
          exact hfl
      · intro i hi f hf2
        rw [hlen] at hi
        rw [hfmap]
        by_cases hil : i = g.mods.length
        · subst hil
          rw [hgx] at hf2
          have hfe : normalizePath file = f := by simpa using hf2
          rw [alGet_alSet, if_pos hfe]
          exact mem_listAdd_self _ _
        · have hil' : i < g.mods.length := by omega
          rw [hother i hil] at hf2
          have hold := hinv.2.2.2 i hil' f hf2
          rw [alGet_alSet]
          by_cases hfk : normalizePath file = f
          · rw [if_pos hfk]
            rw [← hfk, hm] at hold
            exact subset_listAdd _ _ hold
          · rw [if_neg hfk]
            exact hold
    · have hp' : (g.createFileOnlyEntry file).1 = g := by
        simp [ModuleGraph.createFileOnlyEntry, hm, hf]
      rw [hp']
      exact hinv

theorem entryOf_indexInv {g : ModuleGraph} {x : String ⊕ Nat} {ssr : Bool}
    (h : IndexInv g) : IndexInv (g.entryOf x ssr).1 := by
  cases x with
  | inl u => exact ensureEntry_indexInv h
  | inr d => exact h

theorem importsLoop_indexInv (ssr : Bool) (mod : Nat) (imps : List (String ⊕ Nat)) :
    ∀ g : ModuleGraph, IndexInv g → IndexInv (updateImportsLoop ssr mod g imps) := by
  induction imps with
  | nil =>
    intro g h
    rw [updateImportsLoop_nil]
    exact h
  | cons x rest ih =>
    intro g h
    rw [updateImportsLoop_cons]
    refine ih _ ?_
    exact indexInv_modify (fun m => rfl) (fun m => rfl) (fun m => rfl)
      (indexInv_modify (fun m => rfl) (fun m => rfl) (fun m => rfl)
        (entryOf_indexInv h))

theorem pruneLoop_indexInv (mod : Nat) (P : List Nat) :
    ∀ (g : ModuleGraph) (nl : Option (List Nat)),
      IndexInv g → IndexInv (pruneImportsLoop mod g nl P).1 := by
  induction P with
  | nil =>
    intro g nl h
    rw [pruneImportsLoop_nil]
    exact h
  | cons dep rest ih =>
    intro g nl h
    by_cases hskip : dep ∈ (g.getMod mod).importedModules
    · rw [pruneImportsLoop_skip rest hskip]
      exact ih g nl h
    · rw [pruneImportsLoop_remove rest hskip]
      exact ih _ _ (indexInv_modify (fun m => rfl) (fun m => rfl) (fun m => rfl) h)

theorem acceptedLoop_indexInv (ssr : Bool) (mod : Nat) (acc : List (String ⊕ Nat)) :
    ∀ g : ModuleGraph, IndexInv g → IndexInv (acceptedLoop ssr mod g acc) := by
  induction acc with
  | nil =>
    intro g h
    rw [acceptedLoop_nil]
    exact h
  | cons x rest ih =>
    intro g h
    rw [acceptedLoop_cons]
    refine ih _ ?_
    exact indexInv_modify (fun m => rfl) (fun m => rfl) (fun m => rfl)
      (entryOf_indexInv h)

/-- `updateModuleInfo` preserves index consistency. -/
theorem updateModuleInfo_indexInv {g : ModuleGraph} {mod : Nat}
    {imps acc : List (String ⊕ Nat)} {sa ssr : Bool}
    (hinv : IndexInv g) : IndexInv (g.updateModuleInfo mod imps acc sa ssr).1 := by
  rw [updateModuleInfo_eq]
  refine acceptedLoop_indexInv ssr mod acc _ ?_
  refine indexInv_modify (fun m => rfl) (fun m => rfl) (fun m => rfl) ?_
  refine pruneLoop_indexInv mod _ _ _ ?_
  refine importsLoop_indexInv ssr mod imps _ ?_
  exact indexInv_modify (fun m => rfl) (fun m => rfl) (fun m => rfl)
    (indexInv_modify (fun m => rfl) (fun m => rfl) (fun m => rfl) hinv)

/-- C2 (amended): the index consistency the code actually maintains — every
url-index entry names a live node carrying that url, every id-index entry a
live node carrying that id, every file-index entry only live nodes carrying
that file, and every live node with a file is listed under it — is
preserved by `ensureEntryFromUrl`, `createFileOnlyEntry`,
`invalidateModule` and `updateModuleInfo`. The claim's stronger reading
(every live node also reachable through the URL and id indices) is refuted
by the counterexample: `createFileOnlyEntry` registers its node in the
file index only. -/
theorem C2_index_consistency (g : ModuleGraph) (u file : String) (ssr : Bool)
    (mod : Nat) (imps acc : List (String ⊕ Nat)) (sa : Bool)
    (m : Nat) (seen : List Nat) (g' : ModuleGraph) (seen' : List Nat)
    (hinv : IndexInv g)
    (hinval : g.invalidateModule m seen = some (g', seen')) :
    IndexInv (g.ensureEntryFromUrl u ssr).1 ∧
    IndexInv (g.createFileOnlyEntry file).1 ∧
    IndexInv g' ∧
    IndexInv (g.updateModuleInfo mod imps acc sa ssr).1 :=
  ⟨ensureEntry_indexInv hinv, createFileOnly_indexInv hinv,
    invalidateModule_indexInv hinval hinv, updateModuleInfo_indexInv hinv⟩

theorem C2_index_consistency_witness :
    IndexInv (wCycleGraph.ensureEntryFromUrl "/a" false).1 ∧
    IndexInv (wCycleGraph.createFileOnlyEntry "/f.js").1 ∧
    IndexInv ((wCycleGraph.invalidateModule 0 []).getD (wCycleGraph, [])).1 ∧
    IndexInv (wCycleGraph.updateModuleInfo 0 [Sum.inr 1] [] true false).1 :=
  C2_index_consistency wCycleGraph "/a" "/f.js" false 0 [Sum.inr 1] [] true 0 []
    ((wCycleGraph.invalidateModule 0 []).getD (wCycleGraph, [])).1
    ((wCycleGraph.invalidateModule 0 []).getD (wCycleGraph, [])).2
    (by decide) (by rfl)

/-- C2 as stated fails: on the empty graph (where the spec's index
consistency holds) `createFileOnlyEntry` creates a live node that is not
reachable under its url in the URL index. -/
theorem C2_index_consistency_counterexample :
    SpecIndexConsistent wEmptyGraph ∧
    ¬ SpecIndexConsistent (wEmptyGraph.createFileOnlyEntry "/a.css").1 := by
  decide

/-! ## URL canonicalization -/

theorem mk_toList (s : String) : String.mk s.toList = s := by
  cases s
  rfl

theorem splitFirstAux_not_mem {c : Char} : ∀ {l : List Char}, c ∉ l →
    splitFirstAux c l = (l, none) := by
  intro l
  induction l with
  | nil => intro _; rfl
  | cons x xs ih =>
    intro h
    unfold splitFirstAux
    rw [if_neg (fun hc : x = c => h (hc ▸ List.mem_cons_self x xs)),
      ih (fun hc => h (List.mem_cons_of_mem x hc))]

theorem splitFirst_not_mem {s : String} {c : Char} (h : c ∉ s.toList) :
    splitFirst s c = (s, none) := by
  unfold splitFirst
  rw [splitFirstAux_not_mem h]
  simp [mk_toList]

theorem parseUrl_plain {s : String} (h1 : '#' ∉ s.toList) (h2 : '?' ∉ s.toList) :
    parseUrl s = ⟨s, "", ""⟩ := by
  simp [parseUrl, splitFirst_not_mem h1, splitFirst_not_mem h2]

theorem cleanUrl_plain {s : String} (h1 : '#' ∉ s.toList) (h2 : '?' ∉ s.toList) :
    cleanUrl s = s := by
  simp [cleanUrl, parseUrl_plain h1 h2]

theorem removeTimestampQuery_plain {s : String} (h1 : '#' ∉ s.toList)
    (h2 : '?' ∉ s.toList) : removeTimestampQuery s = s := by
  simp [removeTimestampQuery, parseUrl_plain h1 h2, queryParams, withQuery]

theorem removeImportQuery_plain {s : String} (h1 : '#' ∉ s.toList)
    (h2 : '?' ∉ s.toList) : removeImportQuery s = s := by
  simp [removeImportQuery, parseUrl_plain h1 h2, queryParams, withQuery]

theorem cleanedOf_plain {s : String} (h1 : '#' ∉ s.toList) (h2 : '?' ∉ s.toList) :
    cleanedOf s = s := by
  rw [cleanedOf, removeTimestampQuery_plain h1 h2, removeImportQuery_plain h1 h2]

theorem toList_append_css (p : String) :
    (p ++ ".css").toList = p.toList ++ ".css".toList :=
  String.data_append p ".css"

theorem strEndsWith_append_css (p : String) : strEndsWith (p ++ ".css") ".css" = true := by
  simp [strEndsWith, List.isSuffixOf_iff_suffix, toList_append_css]

/-- When the resolver answers with a non-empty id whose clean path carries
the `.css` extension and the plain requested path lacks it, `resolveUrl`
appends the extension to the canonical url. -/
theorem canonUrlOf_append_ext {g : ModuleGraph} {p rid : String} {ssr : Bool}
    {meta : Option MetaData}
    (h1 : '#' ∉ p.toList) (h2 : '?' ∉ p.toList)
    (hr : g.resolveId p ssr = some ⟨rid, meta⟩) (hrne : rid ≠ "")
    (hext : extname (cleanUrl rid) = ".css")
    (hpe : strEndsWith p ".css" = false) :
    canonUrlOf g p ssr = p ++ ".css" := by
  have hcl : cleanedOf p = p := cleanedOf_plain h1 h2
  have hrid : resolvedIdOf g p ssr = rid := by
    unfold resolvedIdOf
    rw [hcl, hr]
    simp [hrne]
  unfold canonUrlOf
  rw [hcl, hrid, hext, parseUrl_plain h1 h2]
  rw [if_pos ⟨by decide, hpe⟩]
  simp

/-- When the requested path already ends in the resolved `.css` extension,
`resolveUrl` keeps it as the canonical url. -/
theorem canonUrlOf_keep_ext {g : ModuleGraph} {q rid : String} {ssr : Bool}
    {meta : Option MetaData}
    (h1 : '#' ∉ q.toList) (h2 : '?' ∉ q.toList)
    (hr : g.resolveId q ssr = some ⟨rid, meta⟩) (hrne : rid ≠ "")
    (hext : extname (cleanUrl rid) = ".css")
    (hqe : strEndsWith q ".css" = true) :
    canonUrlOf g q ssr = q := by
  have hcl : cleanedOf q = q := cleanedOf_plain h1 h2
  have hrid : resolvedIdOf g q ssr = rid := by
    unfold resolvedIdOf
    rw [hcl, hr]
    simp [hrne]
  unfold canonUrlOf
  rw [hcl, hrid, hext, parseUrl_plain h1 h2]
  rw [if_neg (fun hc => by rw [hqe] at hc; exact absurd hc.2 (by decide))]

/-- C7: URL canonicalization round-trip — when the deterministic resolver
maps a plain path and its `.css`-suffixed spelling to the same non-empty
resolved identifier whose clean path carries the `.css` extension,
`resolveUrl` canonicalizes both spellings to the suffixed url, so
`ensureEntryFromUrl` yields the same node for both (the second call
changing nothing) and `getModuleByUrl` finds that node for either
spelling. -/
theorem C7_url_canonicalization (g : ModuleGraph) (p rid : String) (ssr : Bool)
    (meta1 meta2 : Option MetaData)
    (h1 : '#' ∉ p.toList) (h2 : '?' ∉ p.toList)
    (hr1 : g.resolveId p ssr = some ⟨rid, meta1⟩)
    (hr2 : g.resolveId (p ++ ".css") ssr = some ⟨rid, meta2⟩)
    (hrne : rid ≠ "")
    (hext : extname (cleanUrl rid) = ".css")
    (hpe : strEndsWith p ".css" = false) :
    (g.resolveUrl p ssr).1 = (g.resolveUrl (p ++ ".css") ssr).1 ∧
    (g.resolveUrl p ssr).1 = p ++ ".css" ∧
    ((g.ensureEntryFromUrl p ssr).1.ensureEntryFromUrl (p ++ ".css") ssr).1 =
      (g.ensureEntryFromUrl p ssr).1 ∧
    ((g.ensureEntryFromUrl p ssr).1.ensureEntryFromUrl (p ++ ".css") ssr).2 =
      (g.ensureEntryFromUrl p ssr).2 ∧
    (g.ensureEntryFromUrl p ssr).1.getModuleByUrl p ssr =
      some (g.ensureEntryFromUrl p ssr).2 ∧
    (g.ensureEntryFromUrl p ssr).1.getModuleByUrl (p ++ ".css") ssr =
      some (g.ensureEntryFromUrl p ssr).2 := by
  have htl := toList_append_css p
  have h1c : '#' ∉ (p ++ ".css").toList := by
    rw [htl]
    intro hm
    rcases List.mem_append.mp hm with hm | hm
    · exact h1 hm
    · exact absurd hm (by decide)
  have h2c : '?' ∉ (p ++ ".css").toList := by
    rw [htl]
    intro hm
    rcases List.mem_append.mp hm with hm | hm
    · exact h2 hm
    · exact absurd hm (by decide)
  have hc1 : (g.resolveUrl p ssr).1 = p ++ ".css" := by
    rw [resolveUrl_eq]
    exact canonUrlOf_append_ext h1 h2 hr1 hrne hext hpe
  have hc2 : (g.resolveUrl (p ++ ".css") ssr).1 = p ++ ".css" := by
    rw [resolveUrl_eq]
    exact canonUrlOf_keep_ext h1c h2c hr2 hrne hext (strEndsWith_append_css p)
  have hres : (g.ensureEntryFromUrl p ssr).1.resolveId = g.resolveId :=
    ensureEntry_resolveId g p ssr
  have hcup : (g.ensureEntryFromUrl p ssr).1.resolveUrl p ssr = g.resolveUrl p ssr :=
    resolveUrl_congr hres p ssr
  have hcuc : (g.ensureEntryFromUrl p ssr).1.resolveUrl (p ++ ".css") ssr =
      g.resolveUrl (p ++ ".css") ssr :=
    resolveUrl_congr hres (p ++ ".css") ssr
  have hmap : alGet (g.ensureEntryFromUrl p ssr).1.urlToModuleMap (p ++ ".css") =
      some (g.ensureEntryFromUrl p ssr).2 := by
    have hself := ensureEntry_urlMap_self g p ssr
    rw [hc1] at hself
    exact hself
  have hgbu1 : (g.ensureEntryFromUrl p ssr).1.getModuleByUrl p ssr =
      some (g.ensureEntryFromUrl p ssr).2 := by
    unfold ModuleGraph.getModuleByUrl
    rw [hcup, hc1]
    exact hmap
  have hgbu2 : (g.ensureEntryFromUrl p ssr).1.getModuleByUrl (p ++ ".css") ssr =
      some (g.ensureEntryFromUrl p ssr).2 := by
    unfold ModuleGraph.getModuleByUrl
    rw [hcuc, hc2]
    exact hmap
  rcases ensureEntry_cases (g.ensureEntryFromUrl p ssr).1 (p ++ ".css") ssr with
    ⟨ha, hb⟩ | ⟨ha, _, _⟩
  · rw [hcuc, hc2] at ha
    have h22 : ((g.ensureEntryFromUrl p ssr).1.ensureEntryFromUrl (p ++ ".css") ssr).2 =
        (g.ensureEntryFromUrl p ssr).2 :=
      (Option.some.inj (hmap.symm.trans ha)).symm
    exact ⟨hc1.trans hc2.symm, hc1, hb, h22, hgbu1, hgbu2⟩
  · rw [hcuc, hc2] at ha
    rw [hmap] at ha
    exact Option.noConfusion ha

theorem C7_url_canonicalization_witness :
    (wCssGraph.resolveUrl "/foo" false).1 = (wCssGraph.resolveUrl ("/foo" ++ ".css") false).1 ∧
    (wCssGraph.resolveUrl "/foo" false).1 = "/foo" ++ ".css" ∧
    ((wCssGraph.ensureEntryFromUrl "/foo" false).1.ensureEntryFromUrl ("/foo" ++ ".css") false).1 =
      (wCssGraph.ensureEntryFromUrl "/foo" false).1 ∧
    ((wCssGraph.ensureEntryFromUrl "/foo" false).1.ensureEntryFromUrl ("/foo" ++ ".css") false).2 =
      (wCssGraph.ensureEntryFromUrl "/foo" false).2 ∧
    (wCssGraph.ensureEntryFromUrl "/foo" false).1.getModuleByUrl "/foo" false =
      some (wCssGraph.ensureEntryFromUrl "/foo" false).2 ∧
    (wCssGraph.ensureEntryFromUrl "/foo" false).1.getModuleByUrl ("/foo" ++ ".css") false =
      some (wCssGraph.ensureEntryFromUrl "/foo" false).2 :=
  C7_url_canonicalization wCssGraph "/foo" "/root/foo.css" false none none
    (by decide) (by decide) (by decide) (by decide) (by decide) (by decide) (by decide)
